import Mathlib

/-!
Verification development for the termusic repository.

The Rust sources are shallowly embedded: strings are handled as `List Char`
(Rust `&str` slicing at ASCII separators is segment-equal to character-list
splitting), machine integers become `Nat`/`Int` with explicit range checks at
the points where the source performs fallible conversions, and fallible code
returns `Option`/`Except`.
-/

namespace Termusic

/-! ## Decimal digit utilities

Models Rust decimal parsing (`str::parse::<u32>` / `::<i64>` / `::<u64>`) and
decimal formatting (the `Display` impls used by `format!`/`writeln!`).
-/

/-- Numeric value of a list of decimal digit characters (most significant first),
the accumulator form used by positional parsing. -/
def charsToNat (l : List Char) : Nat :=
  l.foldl (fun acc c => acc * 10 + (c.toNat - 48)) 0

/-- Strip one leading `+` sign, as Rust unsigned integer parsing accepts. -/
def stripPlus : List Char → List Char
  | [] => []
  | c :: rest => if c = '+' then rest else c :: rest

/-- Digit-run parsing common to the Rust integer `FromStr` impls: a nonempty
run of decimal digits whose value is at most `bound` (the type's range check). -/
def parseUnsignedCore (bound : Nat) (l2 : List Char) : Option Nat :=
  if l2 = [] then none
  else if l2.all Char.isDigit then
    if charsToNat l2 ≤ bound then some (charsToNat l2) else none
  else none

/-- Embedding of Rust `str::parse::<u32>`: optional `+` sign, then a nonempty
run of decimal digits whose value fits in a `u32`. -/
def parseU32 (l : List Char) : Option Nat :=
  parseUnsignedCore 4294967295 (stripPlus l)

/-- Embedding of Rust `str::parse::<u64>`: optional `+` sign, then a nonempty
run of decimal digits whose value fits in a `u64`. -/
def parseU64 (l : List Char) : Option Nat :=
  parseUnsignedCore 18446744073709551615 (stripPlus l)

/-- Embedding of Rust `str::parse::<i64>`: optional sign, then a nonempty run
of decimal digits, with the `i64` range check. -/
def parseI64 : List Char → Option Int
  | [] => none
  | c :: rest =>
    if c = '-' then
      (parseUnsignedCore 9223372036854775808 rest).map (fun v => -(v : Int))
    else if c = '+' then
      (parseUnsignedCore 9223372036854775807 rest).map (fun v => (v : Int))
    else
      (parseUnsignedCore 9223372036854775807 (c :: rest)).map (fun v => (v : Int))

/-- The decimal digit character for `n < 10`. -/
def digitChar (n : Nat) : Char :=
  match n with
  | 0 => '0' | 1 => '1' | 2 => '2' | 3 => '3' | 4 => '4'
  | 5 => '5' | 6 => '6' | 7 => '7' | 8 => '8' | _ => '9'

/-- Fuel-indexed decimal formatter (most significant digit first); any fuel
strictly greater than the digit count yields the canonical decimal form. -/
def natToCharsFuel : Nat → Nat → List Char
  | 0, _ => []
  | fuel + 1, n => if n < 10 then [digitChar n] else natToCharsFuel fuel (n / 10) ++ [digitChar (n % 10)]

/-- Decimal form of a natural number, as Rust `Display` for unsigned integers. -/
def natToChars (n : Nat) : List Char :=
  natToCharsFuel (n + 1) n

/-- Decimal form of an integer, as Rust `Display` for `i64`. -/
def intToChars (i : Int) : List Char :=
  if i < 0 then '-' :: natToChars i.natAbs else natToChars i.toNat

theorem digitChar_isDigit (n : Nat) (h : n < 10) : (digitChar n).isDigit = true := by
  interval_cases n <;> decide

theorem digitChar_toNat (n : Nat) (h : n < 10) : (digitChar n).toNat - 48 = n := by
  interval_cases n <;> decide

theorem natToCharsFuel_congr (n : Nat) :
    ∀ f1 f2, n < f1 → n < f2 → natToCharsFuel f1 n = natToCharsFuel f2 n := by
  induction n using Nat.strong_induction_on with
  | _ n ih =>
    intro f1 f2 h1 h2
    match f1, f2 with
    | g1 + 1, g2 + 1 =>
      simp only [natToCharsFuel]
      by_cases hn : n < 10
      · simp [hn]
      · simp only [hn, if_false]
        have hlt : n / 10 < n := Nat.div_lt_self (by omega) (by omega)
        rw [ih (n / 10) hlt g1 g2 (by omega) (by omega)]

theorem natToChars_unfold (n : Nat) :
    natToChars n = if n < 10 then [digitChar n] else natToChars (n / 10) ++ [digitChar (n % 10)] := by
  show natToCharsFuel (n + 1) n = _
  by_cases hn : n < 10
  · simp [natToCharsFuel, hn]
  · simp only [natToCharsFuel, hn, if_false]
    have hlt : n / 10 < n := Nat.div_lt_self (by omega) (by omega)
    rw [natToCharsFuel_congr (n / 10) n (n / 10 + 1) (by omega) (by omega)]
    rfl

theorem natToChars_ne_nil (n : Nat) : natToChars n ≠ [] := by
  rw [natToChars_unfold]
  by_cases hn : n < 10 <;> simp [hn]

theorem natToChars_all_digits (n : Nat) : (natToChars n).all Char.isDigit = true := by
  induction n using Nat.strong_induction_on with
  | _ n ih =>
    rw [natToChars_unfold]
    by_cases hn : n < 10
    · simp [hn, digitChar_isDigit n hn]
    · have hlt : n / 10 < n := Nat.div_lt_self (by omega) (by omega)
      simp only [hn, if_false, List.all_append]
      rw [ih (n / 10) hlt]
      simp [digitChar_isDigit (n % 10) (Nat.mod_lt n (by omega))]

theorem charsToNat_append (a b : List Char) :
    charsToNat (a ++ b) = b.foldl (fun acc c => acc * 10 + (c.toNat - 48)) (charsToNat a) := by
  simp [charsToNat, List.foldl_append]

theorem charsToNat_natToChars (n : Nat) : charsToNat (natToChars n) = n := by
  induction n using Nat.strong_induction_on with
  | _ n ih =>
    rw [natToChars_unfold]
    by_cases hn : n < 10
    · simp [hn, charsToNat, digitChar_toNat n hn]
    · have hlt : n / 10 < n := Nat.div_lt_self (by omega) (by omega)
      simp only [hn, if_false]
      rw [charsToNat_append, ih (n / 10) hlt]
      simp only [List.foldl_cons, List.foldl_nil]
      rw [digitChar_toNat (n % 10) (Nat.mod_lt n (by omega))]
      omega

theorem natToChars_head_digit (n : Nat) :
    ∀ c rest, natToChars n = c :: rest → c.isDigit = true := by
  intro c rest h
  have hall := natToChars_all_digits n
  rw [h] at hall
  simp only [List.all_cons, Bool.and_eq_true] at hall
  exact hall.1

theorem isDigit_ne {c : Char} (d : Char) (h : c.isDigit = true) (hd : d.isDigit = false) :
    c ≠ d := by
  intro he
  subst he
  rw [h] at hd
  exact absurd hd (by decide)

theorem stripPlus_all_digits (l : List Char) (hne : l ≠ []) (hall : l.all Char.isDigit = true) :
    stripPlus l = l := by
  match l, hne with
  | c :: rest, _ =>
    simp only [List.all_cons, Bool.and_eq_true] at hall
    have : c ≠ '+' := isDigit_ne '+' hall.1 (by decide)
    simp [stripPlus, this]

theorem parseUnsignedCore_digits (bound : Nat) (l : List Char) (hne : l ≠ [])
    (hall : l.all Char.isDigit = true) (hle : charsToNat l ≤ bound) :
    parseUnsignedCore bound l = some (charsToNat l) := by
  simp [parseUnsignedCore, hne, hall, hle]

theorem parseU32_digits (l : List Char) (hne : l ≠ []) (hall : l.all Char.isDigit = true)
    (hle : charsToNat l ≤ 4294967295) : parseU32 l = some (charsToNat l) := by
  rw [parseU32, stripPlus_all_digits l hne hall]
  exact parseUnsignedCore_digits _ l hne hall hle

theorem parseU64_digits (l : List Char) (hne : l ≠ []) (hall : l.all Char.isDigit = true)
    (hle : charsToNat l ≤ 18446744073709551615) : parseU64 l = some (charsToNat l) := by
  rw [parseU64, stripPlus_all_digits l hne hall]
  exact parseUnsignedCore_digits _ l hne hall hle

theorem parseU32_natToChars (n : Nat) (h : n ≤ 4294967295) :
    parseU32 (natToChars n) = some n := by
  rw [parseU32_digits (natToChars n) (natToChars_ne_nil n) (natToChars_all_digits n)
    (by rw [charsToNat_natToChars]; exact h)]
  rw [charsToNat_natToChars]

theorem parseI64_intToChars (i : Int) (h1 : -9223372036854775808 ≤ i)
    (h2 : i ≤ 9223372036854775807) : parseI64 (intToChars i) = some i := by
  by_cases hneg : i < 0
  · have he : intToChars i = '-' :: natToChars i.natAbs := by simp [intToChars, hneg]
    rw [he, parseI64]
    rw [if_pos rfl]
    rw [parseUnsignedCore_digits _ _ (natToChars_ne_nil i.natAbs) (natToChars_all_digits i.natAbs)
      (by rw [charsToNat_natToChars]; omega)]
    rw [charsToNat_natToChars]
    show some (-(i.natAbs : Int)) = some i
    congr 1
    omega
  · have he : intToChars i = natToChars i.toNat := by simp [intToChars, hneg]
    rw [he]
    match hm : natToChars i.toNat with
    | [] => exact absurd hm (natToChars_ne_nil i.toNat)
    | c :: rest =>
      have hall := natToChars_all_digits i.toNat
      have hv : charsToNat (natToChars i.toNat) = i.toNat := charsToNat_natToChars i.toNat
      rw [hm] at hall hv
      have hcd : c.isDigit = true := by
        simp only [List.all_cons, Bool.and_eq_true] at hall
        exact hall.1
      have hcm : c ≠ '-' := isDigit_ne '-' hcd (by decide)
      have hcp : c ≠ '+' := isDigit_ne '+' hcd (by decide)
      rw [parseI64, if_neg hcm, if_neg hcp]
      rw [parseUnsignedCore_digits _ _ (List.cons_ne_nil c rest) hall (by rw [hv]; omega)]
      rw [hv]
      show some ((i.toNat : Int)) = some i
      congr 1
      omega

/-! ## Character-list utilities

`&str` operations used by the LRC code (`find`, slicing, `trim`, `lines`,
`strip_prefix` on a literal) modelled over `List Char`.
-/

/-- Split at the first occurrence of `c`: `some (before, after)` with `c`
removed, `none` when `c` does not occur.  Models `str::find` plus the two
slices the source takes around the found index. -/
def splitFirst (c : Char) : List Char → Option (List Char × List Char)
  | [] => none
  | x :: xs =>
    if x = c then some ([], xs)
    else (splitFirst c xs).map (fun p => (x :: p.1, p.2))

/-- Whether the pattern `p` is an initial segment, models `str::starts_with` /
the match of `str::strip_prefix`. -/
def startsWithChars : List Char → List Char → Bool
  | [], _ => true
  | _ :: _, [] => false
  | p :: ps, c :: cs => p = c && startsWithChars ps cs

/-- Models Rust `char::is_whitespace`, the Unicode `White_Space` property
that `str::trim` strips: U+0009..U+000D, U+0020, U+0085, U+00A0, U+1680,
U+2000..U+200A, U+2028, U+2029, U+202F, U+205F and U+3000.  This set is
wider than the four-character Lean `Char.isWhitespace`. -/
def rustIsWhitespace (c : Char) : Bool :=
  decide ((9 ≤ c.toNat ∧ c.toNat ≤ 13) ∨ c.toNat = 32 ∨ c.toNat = 133 ∨ c.toNat = 160 ∨
    c.toNat = 5760 ∨ (8192 ≤ c.toNat ∧ c.toNat ≤ 8202) ∨ c.toNat = 8232 ∨ c.toNat = 8233 ∨
    c.toNat = 8239 ∨ c.toNat = 8287 ∨ c.toNat = 12288)

/-- Models `str::trim`: drop Unicode whitespace from both ends. -/
def trimChars (l : List Char) : List Char :=
  ((l.dropWhile rustIsWhitespace).reverse.dropWhile rustIsWhitespace).reverse

/-- One finished line of `str::lines`: the accumulator is reversed, and a
trailing `\r` (the head of the reversed accumulator) is dropped. -/
def finishLine (cur : List Char) : List Char :=
  (if cur.head? = some '\r' then cur.tail else cur).reverse

/-- Worker for `str::lines` over the remaining characters, with the reversed
current-line accumulator. -/
def linesCharsGo (cur : List Char) : List Char → List (List Char)
  | [] => [finishLine cur]
  | c :: rest =>
    if c = '\n' then finishLine cur :: (if rest = [] then [] else linesCharsGo [] rest)
    else linesCharsGo (c :: cur) rest

/-- Models `str::lines`: split on `\n` (terminator semantics), stripping one
trailing `\r` per line. -/
def linesChars (l : List Char) : List (List Char) :=
  if l = [] then [] else linesCharsGo [] l

theorem splitFirst_not_mem (c : Char) (l : List Char) (h : c ∉ l) : splitFirst c l = none := by
  induction l with
  | nil => rfl
  | cons x xs ih =>
    rw [splitFirst]
    have hx : x ≠ c := by
      intro he
      exact h (he ▸ List.mem_cons_self x xs)
    rw [if_neg hx, ih (fun hm => h (List.mem_cons_of_mem x hm))]
    rfl

theorem splitFirst_append_cons (c : Char) (a b : List Char) (h : c ∉ a) :
    splitFirst c (a ++ c :: b) = some (a, b) := by
  induction a with
  | nil => simp [splitFirst]
  | cons x xs ih =>
    have hx : x ≠ c := by
      intro he
      exact h (he ▸ List.mem_cons_self x xs)
    have hxs : c ∉ xs := fun hm => h (List.mem_cons_of_mem x hm)
    simp only [List.cons_append, splitFirst, if_neg hx, List.append_eq]
    rw [ih hxs]
    rfl

theorem startsWithChars_append (p rest : List Char) :
    startsWithChars p (p ++ rest) = true := by
  induction p with
  | nil => rfl
  | cons x xs ih => simp [startsWithChars, ih]

theorem startsWithChars_false_of_second {p1 p2 c1 c2 : Char} (ps cs : List Char)
    (h : p2 ≠ c2) : startsWithChars (p1 :: p2 :: ps) (c1 :: c2 :: cs) = false := by
  simp only [startsWithChars]
  by_cases h1 : p1 = c1 <;> simp [h1, h]

theorem dropWhile_eq_self_of_head (p : Char → Bool) (l : List Char)
    (h : ∀ c rest, l = c :: rest → p c = false) : l.dropWhile p = l := by
  cases l with
  | nil => rfl
  | cons c rest => simp [List.dropWhile_cons, h c rest rfl]

theorem trimChars_eq_self (l : List Char) (_hne : l ≠ [])
    (hh : ∀ c rest, l = c :: rest → rustIsWhitespace c = false)
    (hl : ∀ c, l.getLast? = some c → rustIsWhitespace c = false) : trimChars l = l := by
  rw [trimChars, dropWhile_eq_self_of_head _ l hh]
  rw [dropWhile_eq_self_of_head _ l.reverse, List.reverse_reverse]
  intro c rest hr
  apply hl
  rw [List.getLast?_eq_head?_reverse, hr]
  rfl

/-! ## The LRC lyric engine (`src/lib/src/songtag/lrc.rs`) -/

/-- A caption for a specific time: `Caption` in `lrc.rs`. -/
structure Caption where
  /-- Timestamp in milliseconds (`i64`). -/
  timestamp : Int
  /-- The text of the caption. -/
  text : String
deriving DecidableEq, Repr, Inhabited

/-- The lyric metadata plus text frames: `Lyric` in `lrc.rs`. -/
structure Lyric where
  /-- Offset in milliseconds (`i64`), positive means delay lyric. -/
  offset : Int
  /-- Text frames. -/
  captions : List Caption
deriving DecidableEq, Repr, Inhabited

/-- Ordering of captions by timestamp: the comparator passed to `sort_by` in
`lrc.rs` (`a.timestamp.cmp(&b.timestamp)`). -/
def capLE (a b : Caption) : Prop :=
  a.timestamp ≤ b.timestamp

instance (a b : Caption) : Decidable (capLE a b) :=
  inferInstanceAs (Decidable (a.timestamp ≤ b.timestamp))

/-- Stable insertion used to model the stable `Vec::sort_by`: the new element
goes before the first existing element that is not strictly smaller. -/
def insertCaption (c : Caption) : List Caption → List Caption
  | [] => [c]
  | x :: xs => if c.timestamp ≤ x.timestamp then c :: x :: xs else x :: insertCaption c xs

/-- Model of `captions.sort_by(|a, b| a.timestamp.cmp(&b.timestamp))`.
`Vec::sort_by` is a stable sort, and the stable sort of a list under a total
preorder is unique, so stable insertion sort computes the same list. -/
def sortCaptions : List Caption → List Caption
  | [] => []
  | x :: xs => insertCaption x (sortCaptions xs)

/-- Worker of `Lyric::get_text`: the `for` loop keeping the text of the last
caption whose timestamp is not above `time`, breaking at the first that is. -/
def getTextGo (time : Int) (cur : String) : List Caption → String
  | [] => cur
  | c :: rest => if time ≥ c.timestamp then getTextGo time c.text rest else cur

/-- Embedding of `Lyric::get_text` (time in milliseconds, as the source
converts the input `Duration` with `as_millis`). -/
def Lyric.get_text (l : Lyric) (time_ms : Nat) : Option String :=
  match l.captions with
  | [] => none
  | first :: _ =>
    let adjusted : Int := (time_ms : Int) + 2000 + l.offset
    let t := if adjusted < 0 then 0 else adjusted
    some (getTextGo t first.text l.captions)

/-- Worker of `Lyric::get_index`: the `for` loop keeping the position of the
last caption whose timestamp is not above `time`. -/
def getIndexGo (time : Int) (i idx : Nat) : List Caption → Nat
  | [] => idx
  | c :: rest => if time ≥ c.timestamp then getIndexGo time (i + 1) i rest else idx

/-- Embedding of `Lyric::get_index` (time in milliseconds, `i64`). -/
def Lyric.get_index (l : Lyric) (time : Int) : Option Nat :=
  match l.captions with
  | [] => none
  | _ :: _ => some (getIndexGo |time + l.offset| 0 0 l.captions)

/-- Embedding of `Lyric::adjust_offset` (time in milliseconds, as the source
converts the input `Duration` with `as_millis`). -/
def Lyric.adjust_offset (l : Lyric) (time_ms : Nat) (offset : Int) : Lyric :=
  let time : Int := (time_ms : Int)
  match l.get_index time with
  | none => ⟨l.offset, sortCaptions l.captions⟩
  | some index =>
    if index = 0 ∨ time < 11 then
      ⟨l.offset + offset, sortCaptions l.captions⟩
    else
      let newCaps := l.captions.modify
        (fun c =>
          ⟨if c.timestamp + offset > 0 then c.timestamp + offset else 0, c.text⟩) index
      ⟨l.offset, sortCaptions newCaps⟩

/-- One iteration of the `merge_adjacent` loop at original index `i`, acting
on the state (current merged list, current `offset` variable). -/
def mergeStep (orig : List Caption) (st : List Caption × Nat) (i : Nat) : List Caption × Nat :=
  match orig.get? i with
  | none => st
  | some old =>
    match st.1.get? (i - st.2) with
    | none => st
    | some item =>
      if old.timestamp - item.timestamp < 2000 then
        ((st.1.modify (fun it => ⟨it.timestamp, it.text ++ "  " ++ old.text⟩) (i - st.2)).eraseIdx
            (i - st.2 + 1),
          st.2 + 1)
      else st

/-- Embedding of `Lyric::merge_adjacent`: the indexed loop over the original
caption list (`enumerate().skip(1)`), maintaining a working copy and an
offset of how many captions were removed. -/
def Lyric.merge_adjacent (l : Lyric) : Lyric :=
  ⟨l.offset, (((List.range l.captions.length).drop 1).foldl (mergeStep l.captions)
    (l.captions, 1)).1⟩

/-- Recursive characterization of the `merge_adjacent` loop: scan left to
right, folding any caption closer than 2000 ms to the current group leader
into the leader's text (joined by two spaces). -/
def mergeRecGo (cur : Caption) : List Caption → List Caption
  | [] => [cur]
  | x :: xs =>
    if x.timestamp - cur.timestamp < 2000 then
      mergeRecGo ⟨cur.timestamp, cur.text ++ "  " ++ x.text⟩ xs
    else cur :: mergeRecGo x xs

/-- Recursive characterization of `merge_adjacent` on the caption list. -/
def mergeRec : List Caption → List Caption
  | [] => []
  | x :: xs => mergeRecGo x xs

/-- The `i64 → u64` conversion `timestamp.try_into().unwrap_or(0)` used when
formatting a caption (negative timestamps become 0). -/
def i64ToU64OrZero (i : Int) : Nat :=
  if i < 0 then 0 else i.toNat

/-- The `u64 → i64` conversion `time_stamp.try_into().unwrap_or(0)` used when
parsing a caption (values above `i64::MAX` become 0). -/
def u64ToI64OrZero (n : Nat) : Int :=
  if n ≤ 9223372036854775807 then (n : Int) else 0

/-- Embedding of `Caption::parse_time`: split at the first `:`, then at the
first `.` after it; parse the three components as `u32`; a fractional
component below 99 counts as centiseconds, otherwise as milliseconds. -/
def Caption.parse_time (s : List Char) : Option Nat :=
  match splitFirst ':' s with
  | none => none
  | some (minutesStr, rest) =>
    match splitFirst '.' rest with
    | none => none
    | some (secondsStr, fracStr) =>
      match parseU32 minutesStr, parseU32 secondsStr, parseU32 fracStr with
      | some minutes, some seconds, some centisOrMillis =>
        let millis := if centisOrMillis < 99 then centisOrMillis * 10 else centisOrMillis
        some ((minutes * 60 + seconds) * 1000 + millis)
      | _, _, _ => none

/-- Embedding of `Caption::parse_line`: the timestamp is the segment between
the first `[` and the first `]` after it, the text is everything after that
`]`. -/
def Caption.parse_line (line : List Char) : Option Caption :=
  match splitFirst '[' line with
  | none => none
  | some (_, afterBracket) =>
    match splitFirst ']' afterBracket with
    | none => none
    | some (timestampStr, textChars) =>
      match Caption.parse_time timestampStr with
      | none => none
      | some ts => some ⟨u64ToI64OrZero ts, String.mk textChars⟩

/-- The `"[offset:"` literal of `Lyric::from_str`. -/
def offsetTagChars : List Char :=
  ['[', 'o', 'f', 'f', 's', 'e', 't', ':']

/-- The caption-collecting tail of one `Lyric::from_str` loop iteration: skip
lines not starting with `[`, otherwise push the parsed caption if any. -/
def captionStep (st : Int × List Caption) (line : List Char) : Int × List Caption :=
  match line with
  | [] => st
  | c :: _ =>
    if c = '[' then
      match Caption.parse_line line with
      | some cap => (st.1, st.2 ++ [cap])
      | none => st
    else st

/-- One iteration of the `Lyric::from_str` line loop on the state
(current offset, captions so far): trim the line, skip empty lines, handle an
`[offset:N]` tag (falling through to caption parsing if `N` fails to parse as
`i64`), then try the line as a caption. -/
def processLine (st : Int × List Caption) (rawLine : List Char) : Int × List Caption :=
  let line := trimChars rawLine
  if line = [] then st
  else if startsWithChars offsetTagChars line then
    match splitFirst ']' (line.drop 8) with
    | none => st
    | some (offsetStrRaw, _) =>
      match parseI64 (trimChars offsetStrRaw) with
      | some o => (o, st.2)
      | none => captionStep st line
  else captionStep st line

/-- The line-loop of `Lyric::from_str`: fold over all lines starting from
offset 0 and no captions. -/
def parseState (l : List Char) : Int × List Caption :=
  (linesChars l).foldl processLine (0, [])

/-- Embedding of `<Lyric as FromStr>::from_str` (which never returns an
error): collect offset and captions, sort the captions by timestamp, then
merge adjacent captions.  String input is taken by its character list. -/
def Lyric.from_str (s : String) : Lyric :=
  Lyric.merge_adjacent ⟨(parseState s.data).1, sortCaptions (parseState s.data).2⟩

/-- Two-digit zero-padded decimal form, Rust `format!("{:02}")`. -/
def fmt2 (n : Nat) : List Char :=
  if n < 10 then '0' :: natToChars n else natToChars n

/-- Embedding of `time_lrc`: format a millisecond timestamp as `mm:ss.cc`
(minutes modulo 60, centiseconds = subsecond milliseconds / 10). -/
def time_lrc (ts : Nat) : List Char :=
  fmt2 (ts / 1000 / 60 % 60) ++ ':' :: fmt2 (ts / 1000 % 60) ++ '.' :: fmt2 (ts % 1000 / 10)

/-- Embedding of `Caption::as_lrc`: `[<time>]<text>` plus the newline that
`writeln!` appends. -/
def Caption.as_lrc (c : Caption) : List Char :=
  '[' :: time_lrc (i64ToU64OrZero c.timestamp) ++ ']' :: c.text.data ++ ['\n']

/-- Embedding of `Lyric::as_lrc_text`: an `[offset:N]` line when the offset
is nonzero, then each caption as an LRC line. -/
def Lyric.as_lrc_text (l : Lyric) : String :=
  String.mk ((if l.offset ≠ 0 then offsetTagChars ++ intToChars l.offset ++ [']', '\n'] else [])
    ++ (l.captions.map Caption.as_lrc).flatten)


/-! ## Sorting and merging lemmas -/

theorem insertCaption_perm (c : Caption) (l : List Caption) :
    (insertCaption c l).Perm (c :: l) := by
  induction l with
  | nil => exact List.Perm.refl _
  | cons x xs ih =>
    rw [insertCaption]
    by_cases h : c.timestamp ≤ x.timestamp
    · rw [if_pos h]
    · rw [if_neg h]
      exact (List.Perm.cons x ih).trans (List.Perm.swap c x xs)

theorem sortCaptions_perm (l : List Caption) : (sortCaptions l).Perm l := by
  induction l with
  | nil => exact List.Perm.refl _
  | cons x xs ih =>
    rw [sortCaptions]
    exact (insertCaption_perm x (sortCaptions xs)).trans (List.Perm.cons x ih)

theorem insertCaption_sorted (c : Caption) (l : List Caption) (h : List.Chain' capLE l) :
    List.Chain' capLE (insertCaption c l) := by
  induction l with
  | nil => exact List.chain'_singleton c
  | cons x xs ih =>
    rw [insertCaption]
    by_cases hcx : c.timestamp ≤ x.timestamp
    · rw [if_pos hcx]
      exact List.chain'_cons.mpr ⟨hcx, h⟩
    · rw [if_neg hcx]
      have hxc : capLE x c := by
        show x.timestamp ≤ c.timestamp
        omega
      have htail : List.Chain' capLE xs := h.tail
      apply List.chain'_cons'.mpr
      refine ⟨?_, ih htail⟩
      intro y hy
      cases xs with
      | nil =>
        rw [insertCaption] at hy
        simp only [Option.mem_def, List.head?_cons, Option.some_inj] at hy
        exact hy ▸ hxc
      | cons z zs =>
        rw [insertCaption] at hy
        by_cases hcz : c.timestamp ≤ z.timestamp
        · rw [if_pos hcz] at hy
          simp only [Option.mem_def, List.head?_cons, Option.some_inj] at hy
          exact hy ▸ hxc
        · rw [if_neg hcz] at hy
          simp only [Option.mem_def, List.head?_cons, Option.some_inj] at hy
          have := (List.chain'_cons.mp h).1
          exact hy ▸ this

theorem sortCaptions_sorted (l : List Caption) : List.Chain' capLE (sortCaptions l) := by
  induction l with
  | nil => exact List.chain'_nil
  | cons x xs ih => exact insertCaption_sorted x (sortCaptions xs) ih

theorem insertCaption_of_le (c : Caption) (l : List Caption)
    (h : ∀ y ∈ l.head?, capLE c y) : insertCaption c l = c :: l := by
  cases l with
  | nil => rfl
  | cons x xs =>
    have h2 : c.timestamp ≤ x.timestamp := h x (by rfl)
    rw [insertCaption, if_pos h2]

theorem sortCaptions_eq_self (l : List Caption) (h : List.Chain' capLE l) :
    sortCaptions l = l := by
  induction l with
  | nil => rfl
  | cons x xs ih =>
    rw [sortCaptions, ih h.tail]
    apply insertCaption_of_le
    intro y hy
    exact (List.chain'_cons'.mp h).1 y hy

/-! ### The merge loop equals its recursive characterization -/

theorem get?_append_cons {α : Type} (done : List α) (cur : α) (rest : List α) :
    (done ++ cur :: rest).get? done.length = some cur := by
  induction done with
  | nil => rfl
  | cons d ds ih => simpa using ih

theorem get?_of_drop {α : Type} :
    ∀ (i : Nat) (l : List α) (x : α) (xs : List α), l.drop i = x :: xs → l.get? i = some x := by
  intro i
  induction i with
  | zero =>
    intro l x xs h
    rw [List.drop_zero] at h
    rw [h]
    rfl
  | succ n ih =>
    intro l x xs h
    cases l with
    | nil => simp at h
    | cons c t =>
      rw [List.drop_succ_cons] at h
      exact ih t x xs h

theorem drop_succ_of_drop {α : Type} (l : List α) (i : Nat) (x : α) (xs : List α)
    (h : l.drop i = x :: xs) : l.drop (i + 1) = xs := by
  rw [← List.tail_drop, h]
  rfl

theorem modify_append_cons {α : Type} (f : α → α) (done : List α) (cur : α) (rest : List α) :
    List.modify f done.length (done ++ cur :: rest) = done ++ f cur :: rest := by
  induction done with
  | nil => simp [List.modify]
  | cons d ds ih => simpa [List.modify] using ih

theorem eraseIdx_append_cons_succ {α : Type} (done : List α) (a b : α) (rest : List α) :
    (done ++ a :: b :: rest).eraseIdx (done.length + 1) = done ++ a :: rest := by
  induction done with
  | nil => rfl
  | cons d ds ih => simpa using ih

theorem mergeFold_go (orig : List Caption) :
    ∀ (rest done : List Caption) (cur : Caption) (i : Nat),
      orig.drop i = rest → done.length + 1 ≤ i →
      ((List.range' i rest.length).foldl (mergeStep orig) (done ++ cur :: rest, i - done.length)).1
        = done ++ mergeRecGo cur rest := by
  intro rest
  induction rest with
  | nil =>
    intro done cur i hdrop hlen
    simp [mergeRecGo]
  | cons x xs ih =>
    intro done cur i hdrop hlen
    rw [List.length_cons, List.range'_succ, List.foldl_cons]
    have hget : orig.get? i = some x := get?_of_drop i orig x xs hdrop
    have hoff : i - (i - done.length) = done.length := by omega
    have hstep : mergeStep orig (done ++ cur :: x :: xs, i - done.length) i =
        if x.timestamp - cur.timestamp < 2000 then
          (done ++ (⟨cur.timestamp, cur.text ++ "  " ++ x.text⟩ : Caption) :: xs,
            (i - done.length) + 1)
        else (done ++ cur :: x :: xs, i - done.length) := by
      rw [mergeStep, hget]
      simp only [hoff, get?_append_cons]
      by_cases hgap : x.timestamp - cur.timestamp < 2000
      · rw [if_pos hgap, modify_append_cons]
        rw [eraseIdx_append_cons_succ]
        rw [if_pos hgap]
      · rw [if_neg hgap, if_neg hgap]
    rw [hstep]
    have hdrop2 : orig.drop (i + 1) = xs := drop_succ_of_drop orig i x xs hdrop
    by_cases hgap : x.timestamp - cur.timestamp < 2000
    · rw [if_pos hgap]
      have hoff2 : (i - done.length) + 1 = (i + 1) - done.length := by omega
      rw [hoff2]
      rw [ih done ⟨cur.timestamp, cur.text ++ "  " ++ x.text⟩ (i + 1) hdrop2 (by omega)]
      rw [mergeRecGo, if_pos hgap]
    · rw [if_neg hgap]
      have hoff2 : i - done.length = (i + 1) - (done ++ [cur]).length := by
        simp only [List.length_append, List.length_cons, List.length_nil]
        omega
      have hlist : done ++ cur :: x :: xs = (done ++ [cur]) ++ x :: xs := by
        simp
      rw [hoff2, hlist]
      rw [ih (done ++ [cur]) x (i + 1) hdrop2 (by simp; omega)]
      rw [mergeRecGo, if_neg hgap]
      simp

theorem merge_adjacent_eq_mergeRec (l : Lyric) :
    l.merge_adjacent = ⟨l.offset, mergeRec l.captions⟩ := by
  rw [Lyric.merge_adjacent]
  cases hc : l.captions with
  | nil => simp [mergeRec]
  | cons c rest =>
    congr 1
    have hrange : (List.range (c :: rest).length).drop 1 = List.range' 1 rest.length := by
      rw [List.length_cons, List.range_eq_range', List.range'_succ]
      rfl
    rw [hrange]
    have := mergeFold_go (c :: rest) rest [] c 1 (by rfl) (by simp)
    simpa [mergeRec] using this

/-! ### Structure of the merged caption list -/

/-- The adjacency relation guaranteed after merging: consecutive captions are
at least 2000 ms apart. -/
def capGap (a b : Caption) : Prop :=
  2000 ≤ b.timestamp - a.timestamp

instance (a b : Caption) : Decidable (capGap a b) :=
  inferInstanceAs (Decidable (2000 ≤ b.timestamp - a.timestamp))

theorem mergeRecGo_head :
    ∀ (l : List Caption) (cur : Caption),
      ∃ t rest2, mergeRecGo cur l = ⟨cur.timestamp, t⟩ :: rest2 := by
  intro l
  induction l with
  | nil =>
    intro cur
    exact ⟨cur.text, [], rfl⟩
  | cons x xs ih =>
    intro cur
    rw [mergeRecGo]
    by_cases hgap : x.timestamp - cur.timestamp < 2000
    · rw [if_pos hgap]
      exact ih ⟨cur.timestamp, cur.text ++ "  " ++ x.text⟩
    · rw [if_neg hgap]
      exact ⟨cur.text, mergeRecGo x xs, rfl⟩

theorem mergeRecGo_gap :
    ∀ (l : List Caption) (cur : Caption), List.Chain' capLE (cur :: l) →
      List.Chain' capGap (mergeRecGo cur l) := by
  intro l
  induction l with
  | nil =>
    intro cur _
    exact List.chain'_singleton _
  | cons x xs ih =>
    intro cur h
    have h1 : capLE cur x := (List.chain'_cons.mp h).1
    have h2 : List.Chain' capLE (x :: xs) := (List.chain'_cons.mp h).2
    rw [mergeRecGo]
    by_cases hgap : x.timestamp - cur.timestamp < 2000
    · rw [if_pos hgap]
      apply ih
      apply List.chain'_cons'.mpr
      refine ⟨?_, h2.tail⟩
      intro y hy
      have hx : ∀ z ∈ xs.head?, capLE x z := (List.chain'_cons'.mp h2).1
      have := hx y hy
      show cur.timestamp ≤ y.timestamp
      have hcx : cur.timestamp ≤ x.timestamp := h1
      have hxy : x.timestamp ≤ y.timestamp := this
      omega
    · rw [if_neg hgap]
      apply List.chain'_cons'.mpr
      refine ⟨?_, ih x h2⟩
      intro y hy
      obtain ⟨t, rest2, heq⟩ := mergeRecGo_head xs x
      rw [heq] at hy
      simp only [Option.mem_def, List.head?_cons, Option.some_inj] at hy
      show 2000 ≤ y.timestamp - cur.timestamp
      rw [← hy]
      show 2000 ≤ x.timestamp - cur.timestamp
      omega

theorem mergeRecGo_sorted :
    ∀ (l : List Caption) (cur : Caption), List.Chain' capLE (cur :: l) →
      List.Chain' capLE (mergeRecGo cur l) := by
  intro l
  induction l with
  | nil =>
    intro cur _
    exact List.chain'_singleton _
  | cons x xs ih =>
    intro cur h
    have h1 : capLE cur x := (List.chain'_cons.mp h).1
    have h2 : List.Chain' capLE (x :: xs) := (List.chain'_cons.mp h).2
    rw [mergeRecGo]
    by_cases hgap : x.timestamp - cur.timestamp < 2000
    · rw [if_pos hgap]
      apply ih
      apply List.chain'_cons'.mpr
      refine ⟨?_, h2.tail⟩
      intro y hy
      have hx := (List.chain'_cons'.mp h2).1 y hy
      show cur.timestamp ≤ y.timestamp
      have hcx : cur.timestamp ≤ x.timestamp := h1
      have hxy : x.timestamp ≤ y.timestamp := hx
      omega
    · rw [if_neg hgap]
      apply List.chain'_cons'.mpr
      refine ⟨?_, ih x h2⟩
      intro y hy
      obtain ⟨t, rest2, heq⟩ := mergeRecGo_head xs x
      rw [heq] at hy
      simp only [Option.mem_def, List.head?_cons, Option.some_inj] at hy
      show cur.timestamp ≤ y.timestamp
      rw [← hy]
      exact h1

/-- Join a list of caption texts with two spaces, the merge rule's text
combination. -/
def joinTwoSpaces : List String → String
  | [] => ""
  | [t] => t
  | t :: ts => t ++ "  " ++ joinTwoSpaces ts

/-- Collapse a nonempty group of captions into the single caption the merge
produces: the first caption's timestamp, and all texts joined by two spaces. -/
def collapseGroup (g : List Caption) : Caption :=
  ⟨(g.headI).timestamp, joinTwoSpaces (g.map Caption.text)⟩

theorem joinTwoSpaces_append_singleton :
    ∀ (l : List String) (a : String), l ≠ [] →
      joinTwoSpaces (l ++ [a]) = joinTwoSpaces l ++ "  " ++ a := by
  intro l
  induction l with
  | nil => intro a h; exact absurd rfl h
  | cons t ts ih =>
    intro a _
    cases ts with
    | nil => rfl
    | cons u us =>
      have := ih a (List.cons_ne_nil u us)
      show t ++ "  " ++ joinTwoSpaces ((u :: us) ++ [a]) = (t ++ "  " ++ joinTwoSpaces (u :: us)) ++ "  " ++ a
      rw [this]
      simp [String.append_assoc]

theorem headI_append_of_ne_nil (a : List Caption) (b : List Caption) (h : a ≠ []) :
    (a ++ b).headI = a.headI := by
  cases a with
  | nil => exact absurd rfl h
  | cons x xs => rfl

theorem collapseGroup_singleton (x : Caption) : collapseGroup [x] = x := rfl

theorem mergeRecGo_grouping :
    ∀ (l acc : List Caption) (cur : Caption), acc ≠ [] → cur = collapseGroup acc →
      ∃ groups : List (List Caption), (∀ g ∈ groups, g ≠ []) ∧
        groups.flatten = acc ++ l ∧ mergeRecGo cur l = groups.map collapseGroup := by
  intro l
  induction l with
  | nil =>
    intro acc cur hacc hcur
    refine ⟨[acc], ?_, by simp, ?_⟩
    · intro g hg
      rw [List.mem_singleton] at hg
      exact hg ▸ hacc
    · rw [mergeRecGo, List.map_cons, List.map_nil, hcur]
  | cons x xs ih =>
    intro acc cur hacc hcur
    rw [mergeRecGo]
    by_cases hgap : x.timestamp - cur.timestamp < 2000
    · rw [if_pos hgap]
      have hcur2 : (⟨cur.timestamp, cur.text ++ "  " ++ x.text⟩ : Caption) =
          collapseGroup (acc ++ [x]) := by
        rw [collapseGroup]
        have ht : (acc ++ [x]).headI.timestamp = acc.headI.timestamp := by
          rw [headI_append_of_ne_nil acc [x] hacc]
        have htxt : joinTwoSpaces ((acc ++ [x]).map Caption.text) =
            joinTwoSpaces (acc.map Caption.text) ++ "  " ++ x.text := by
          rw [List.map_append, List.map_singleton]
          exact joinTwoSpaces_append_singleton (acc.map Caption.text) x.text
            (by simpa using hacc)
        rw [ht, htxt]
        have hts : acc.headI.timestamp = cur.timestamp := by rw [hcur]; rfl
        have htx : joinTwoSpaces (List.map Caption.text acc) = cur.text := by rw [hcur]; rfl
        rw [hts, htx]
      obtain ⟨groups, hne, hflat, heq⟩ :=
        ih (acc ++ [x]) ⟨cur.timestamp, cur.text ++ "  " ++ x.text⟩ (by simp) hcur2
      refine ⟨groups, hne, ?_, heq⟩
      rw [hflat]
      simp
    · rw [if_neg hgap]
      obtain ⟨groups, hne, hflat, heq⟩ :=
        ih [x] x (List.cons_ne_nil x []) (collapseGroup_singleton x).symm
      refine ⟨acc :: groups, ?_, ?_, ?_⟩
      · intro g hg
        rcases List.mem_cons.mp hg with h | h
        · exact h ▸ hacc
        · exact hne g h
      · rw [List.flatten_cons, hflat]
        simp
      · rw [List.map_cons, ← hcur, heq]

/-- The captions produced by `from_str`, before sorting and merging. -/
def parsedCaptions (s : String) : List Caption :=
  (parseState s.data).2

theorem from_str_captions (s : String) :
    (Lyric.from_str s).captions = mergeRec (sortCaptions (parsedCaptions s)) := by
  rw [Lyric.from_str, merge_adjacent_eq_mergeRec]
  rfl

theorem mergeRec_gap (l : List Caption) (h : List.Chain' capLE l) :
    List.Chain' capGap (mergeRec l) := by
  cases l with
  | nil => exact List.chain'_nil
  | cons x xs => exact mergeRecGo_gap xs x h

theorem mergeRec_sorted (l : List Caption) (h : List.Chain' capLE l) :
    List.Chain' capLE (mergeRec l) := by
  cases l with
  | nil => exact List.chain'_nil
  | cons x xs => exact mergeRecGo_sorted xs x h

theorem mergeRec_grouping (l : List Caption) :
    ∃ groups : List (List Caption), (∀ g ∈ groups, g ≠ []) ∧
      groups.flatten = l ∧ mergeRec l = groups.map collapseGroup := by
  cases l with
  | nil => exact ⟨[], by simp, by simp, by simp [mergeRec]⟩
  | cons x xs =>
    obtain ⟨groups, hne, hflat, heq⟩ :=
      mergeRecGo_grouping xs [x] x (List.cons_ne_nil x []) (collapseGroup_singleton x).symm
    exact ⟨groups, hne, by simpa using hflat, heq⟩

instance : IsTrans Caption capLE :=
  ⟨fun _ _ _ hab hbc => le_trans hab hbc⟩

/-- C3: for every input string, the caption list produced by `Lyric::from_str`
is sorted by timestamp ascending, no two adjacent captions are closer than
2000 ms, and the result is obtained by partitioning the sorted parsed captions
into consecutive nonempty groups and collapsing each group to its first
timestamp with the texts joined by two spaces. -/
theorem c3_from_str_merge_invariant (s : String) :
    List.Chain' capLE (Lyric.from_str s).captions ∧
    List.Chain' capGap (Lyric.from_str s).captions ∧
    ∃ groups : List (List Caption), (∀ g ∈ groups, g ≠ []) ∧
      groups.flatten = sortCaptions (parsedCaptions s) ∧
      (Lyric.from_str s).captions = groups.map collapseGroup := by
  rw [from_str_captions]
  exact ⟨mergeRec_sorted _ (sortCaptions_sorted _), mergeRec_gap _ (sortCaptions_sorted _),
    mergeRec_grouping _⟩

/-! ## Lookup lemmas (`get_text` / `get_index`) -/


theorem sorted_head_le (c : Caption) (rest : List Caption)
    (h : List.Chain' capLE (c :: rest)) :
    ∀ (k : Nat) (ck : Caption), (c :: rest).get? k = some ck →
      c.timestamp ≤ ck.timestamp := by
  intro k ck hget
  have hpw : List.Pairwise capLE (c :: rest) := List.chain'_iff_pairwise.mp h
  cases k with
  | zero =>
    rw [List.get?_cons_zero, Option.some_inj] at hget
    rw [hget]
  | succ k2 =>
    rw [List.get?_eq_some] at hget
    obtain ⟨hk, hget⟩ := hget
    have := List.pairwise_iff_get.mp hpw ⟨0, by simp⟩ ⟨k2 + 1, hk⟩ (by
      show 0 < k2 + 1
      omega)
    rw [hget] at this
    exact this

theorem getTextGo_last :
    ∀ (rest : List Caption) (c : Caption) (adj : Int) (d : String),
      List.Chain' capLE (c :: rest) → c.timestamp ≤ adj →
      ∃ (j : Nat) (cj : Caption), (c :: rest).get? j = some cj ∧
        getTextGo adj d (c :: rest) = cj.text ∧ cj.timestamp ≤ adj ∧
        ∀ (k : Nat) (ck : Caption), (c :: rest).get? k = some ck →
          ck.timestamp ≤ adj → k ≤ j := by
  intro rest
  induction rest with
  | nil =>
    intro c adj d _ hle
    refine ⟨0, c, rfl, ?_, hle, ?_⟩
    · rw [getTextGo, if_pos hle]
      rfl
    · intro k ck hget _
      cases k with
      | zero => omega
      | succ k2 => simp at hget
  | cons c2 rest2 ih =>
    intro c adj d h hle
    have h2 : List.Chain' capLE (c2 :: rest2) := (List.chain'_cons.mp h).2
    rw [getTextGo, if_pos hle]
    by_cases hle2 : c2.timestamp ≤ adj
    · obtain ⟨j, cj, hget, heq, hts, hmax⟩ := ih c2 adj c.text h2 hle2
      refine ⟨j + 1, cj, ?_, heq, hts, ?_⟩
      · rw [List.get?_cons_succ]
        exact hget
      · intro k ck hgetk htsk
        cases k with
        | zero => omega
        | succ k2 =>
          rw [List.get?_cons_succ] at hgetk
          have := hmax k2 ck hgetk htsk
          omega
    · refine ⟨0, c, rfl, ?_, hle, ?_⟩
      · rw [getTextGo, if_neg (by omega)]
      · intro k ck hgetk htsk
        cases k with
        | zero => omega
        | succ k2 =>
          exfalso
          rw [List.get?_cons_succ] at hgetk
          have := sorted_head_le c2 rest2 h2 k2 ck hgetk
          omega

/-- The adjusted query time of `get_text`: two-second forward bias plus the
lyric offset, clamped at zero. -/
def adjustedTime (l : Lyric) (time_ms : Nat) : Int :=
  max ((time_ms : Int) + 2000 + l.offset) 0

theorem ifNeg_eq_max (a : Int) : (if a < 0 then 0 else a) = max a 0 := by
  by_cases h : a < 0
  · rw [if_pos h, max_eq_right (by omega)]
  · rw [if_neg h, max_eq_left (by omega)]

theorem ifPos_eq_max (a : Int) : (if a > 0 then a else 0) = max a 0 := by
  by_cases h : a > 0
  · rw [if_pos h, max_eq_left (by omega)]
  · rw [if_neg h, max_eq_right (by omega)]

theorem get_text_none_iff (l : Lyric) (time_ms : Nat) :
    l.get_text time_ms = none ↔ l.captions = [] := by
  cases hc : l.captions with
  | nil => simp [Lyric.get_text, hc]
  | cons c rest => simp [Lyric.get_text, hc]

theorem get_text_eq_go (l : Lyric) (time_ms : Nat) (c : Caption) (rest : List Caption)
    (hc : l.captions = c :: rest) :
    l.get_text time_ms = some (getTextGo (adjustedTime l time_ms) c.text (c :: rest)) := by
  rw [Lyric.get_text, hc]
  simp only [Option.some_inj]
  rw [ifNeg_eq_max]
  rfl

/-- The property claim C4 states (written from the spec sentence, for
comparison with the code): `get_text` is none exactly on empty captions, and
whenever some caption is at or before the adjusted time, the result is the
text of the greatest such caption. -/
def c4ClaimProp (l : Lyric) (time_ms : Nat) : Prop :=
  (l.get_text time_ms = none ↔ l.captions = []) ∧
  ∀ (i : Nat) (ci : Caption), l.captions.get? i = some ci →
    ci.timestamp ≤ adjustedTime l time_ms →
    ∃ (j : Nat) (cj : Caption), l.captions.get? j = some cj ∧
      cj.timestamp ≤ adjustedTime l time_ms ∧
      (∀ (k : Nat) (ck : Caption), l.captions.get? k = some ck →
        ck.timestamp ≤ adjustedTime l time_ms → ck.timestamp ≤ cj.timestamp) ∧
      l.get_text time_ms = some cj.text

/-- C4 (counterexample): the claim quantifies over every `Lyric`, but for an
unsorted caption list the scan loop of `get_text` breaks at the first caption
that is after the adjusted time, so it can return a caption that is not the
greatest one at or before the adjusted time. -/
theorem c4_counterexample : ¬ c4ClaimProp ⟨0, [⟨5000, "a"⟩, ⟨1000, "b"⟩]⟩ 0 := by
  intro h
  obtain ⟨-, h2⟩ := h
  obtain ⟨j, cj, hget, hts, hmax, heq⟩ := h2 1 ⟨1000, "b"⟩ (by decide) (by decide)
  have hb := hmax 1 ⟨1000, "b"⟩ (by decide) (by decide)
  match j, hget with
  | 0, hget =>
    rw [List.get?_cons_zero, Option.some_inj] at hget
    rw [← hget] at hts
    revert hts
    decide
  | 1, hget =>
    rw [show ([⟨5000, "a"⟩, ⟨1000, "b"⟩] : List Caption).get? 1 = some ⟨1000, "b"⟩ from rfl,
      Option.some_inj] at hget
    rw [← hget] at heq
    revert heq
    decide

/-- C4 (amended): for every `Lyric` whose captions are sorted by timestamp,
`get_text` is none exactly on the empty caption list, and whenever some
caption's timestamp is at or before `max(t_ms + 2000 + offset, 0)`, the result
is the text of the last caption at or before that adjusted time (which, the
list being sorted, is a greatest such caption). -/
theorem c4_get_text_greatest (l : Lyric) (time_ms : Nat)
    (hsorted : List.Chain' capLE l.captions) :
    (l.get_text time_ms = none ↔ l.captions = []) ∧
    ∀ (i : Nat) (ci : Caption), l.captions.get? i = some ci →
      ci.timestamp ≤ adjustedTime l time_ms →
      ∃ (j : Nat) (cj : Caption), l.captions.get? j = some cj ∧
        l.get_text time_ms = some cj.text ∧
        cj.timestamp ≤ adjustedTime l time_ms ∧
        ∀ (k : Nat) (ck : Caption), l.captions.get? k = some ck →
          ck.timestamp ≤ adjustedTime l time_ms → k ≤ j := by
  refine ⟨get_text_none_iff l time_ms, ?_⟩
  intro i ci hget hts
  cases hc : l.captions with
  | nil =>
    rw [hc] at hget
    simp at hget
  | cons c rest =>
    rw [hc] at hget hsorted
    have hhead : c.timestamp ≤ adjustedTime l time_ms := by
      have := sorted_head_le c rest hsorted i ci hget
      omega
    obtain ⟨j, cj, hgetj, heq, htsj, hmax⟩ :=
      getTextGo_last rest c (adjustedTime l time_ms) c.text hsorted hhead
    refine ⟨j, cj, hgetj, ?_, htsj, hmax⟩
    rw [get_text_eq_go l time_ms c rest hc, heq]

theorem getIndexGo_spec :
    ∀ (rest : List Caption) (c : Caption) (t : Int) (i idx : Nat),
      List.Chain' capLE (c :: rest) → c.timestamp ≤ t →
      ∃ (j : Nat) (cj : Caption), (c :: rest).get? j = some cj ∧
        getIndexGo t i idx (c :: rest) = i + j ∧ cj.timestamp ≤ t ∧
        ∀ (k : Nat) (ck : Caption), (c :: rest).get? k = some ck →
          ck.timestamp ≤ t → k ≤ j := by
  intro rest
  induction rest with
  | nil =>
    intro c t i idx _ hle
    refine ⟨0, c, rfl, ?_, hle, ?_⟩
    · rw [getIndexGo, if_pos hle]
      rw [getIndexGo]
      omega
    · intro k ck hget _
      cases k with
      | zero => omega
      | succ k2 => simp at hget
  | cons c2 rest2 ih =>
    intro c t i idx h hle
    have h2 : List.Chain' capLE (c2 :: rest2) := (List.chain'_cons.mp h).2
    rw [getIndexGo, if_pos hle]
    by_cases hle2 : c2.timestamp ≤ t
    · obtain ⟨j, cj, hget, heq, hts, hmax⟩ := ih c2 t (i + 1) i h2 hle2
      refine ⟨j + 1, cj, ?_, ?_, hts, ?_⟩
      · rw [List.get?_cons_succ]
        exact hget
      · rw [heq]
        omega
      · intro k ck hgetk htsk
        cases k with
        | zero => omega
        | succ k2 =>
          rw [List.get?_cons_succ] at hgetk
          have := hmax k2 ck hgetk htsk
          omega
    · refine ⟨0, c, rfl, ?_, hle, ?_⟩
      · rw [getIndexGo, if_neg (by omega)]
        omega
      · intro k ck hgetk htsk
        cases k with
        | zero => omega
        | succ k2 =>
          exfalso
          rw [List.get?_cons_succ] at hgetk
          have := sorted_head_le c2 rest2 h2 k2 ck hgetk
          omega

theorem getIndexGo_bound :
    ∀ (caps : List Caption) (t : Int) (i idx : Nat),
      getIndexGo t i idx caps = idx ∨ getIndexGo t i idx caps < i + caps.length := by
  intro caps
  induction caps with
  | nil =>
    intro t i idx
    left
    rfl
  | cons c rest ih =>
    intro t i idx
    rw [getIndexGo]
    by_cases hle : t ≥ c.timestamp
    · rw [if_pos hle]
      rcases ih t (i + 1) i with h | h
      · right
        rw [h]
        simp
      · right
        rw [List.length_cons]
        omega
    · rw [if_neg hle]
      left
      rfl

theorem get_index_lt (l : Lyric) (t : Int) (idx : Nat) (h : l.get_index t = some idx) :
    idx < l.captions.length := by
  rw [Lyric.get_index] at h
  cases hc : l.captions with
  | nil =>
    rw [hc] at h
    exact absurd h (by simp)
  | cons c rest =>
    rw [hc] at h
    simp only [Option.some_inj] at h
    rcases getIndexGo_bound (c :: rest) |t + l.offset| 0 0 with h2 | h2
    · rw [h2] at h
      rw [← h]
      simp
    · rw [← h]
      simpa using h2

/-- The property claim C5 states (written from the spec sentence, for
comparison with the code): `get_index` uses the same adjusted time as
`get_text`, namely `max(t + 2000 + offset, 0)`, and returns the position of
the greatest caption at or before it. -/
def c5ClaimProp (l : Lyric) (t : Int) : Prop :=
  l.captions ≠ [] →
  ∀ (i : Nat) (ci : Caption), l.captions.get? i = some ci →
    ci.timestamp ≤ max (t + 2000 + l.offset) 0 →
    ∃ (j : Nat) (cj : Caption), l.captions.get? j = some cj ∧
      l.get_index t = some j ∧
      cj.timestamp ≤ max (t + 2000 + l.offset) 0 ∧
      ∀ (k : Nat) (ck : Caption), l.captions.get? k = some ck →
        ck.timestamp ≤ max (t + 2000 + l.offset) 0 → ck.timestamp ≤ cj.timestamp

/-- C5 (counterexample): `get_index` does not apply the 2-second forward bias
of `get_text`; it adjusts the query time by `|t + offset|` only, so at `t = 0`
a caption at 1500 ms inside the claimed window `max(t + 2000 + offset, 0)` is
not selected. -/
theorem c5_counterexample : ¬ c5ClaimProp ⟨0, [⟨0, "a"⟩, ⟨1500, "b"⟩]⟩ 0 := by
  intro h
  obtain ⟨j, cj, hget, hidx, hts, hmax⟩ :=
    h (by decide) 1 ⟨1500, "b"⟩ (by decide) (by decide)
  have hj : j = 0 := by
    have : (⟨0, [⟨0, "a"⟩, ⟨1500, "b"⟩]⟩ : Lyric).get_index 0 = some 0 := by decide
    rw [this, Option.some_inj] at hidx
    omega
  rw [hj, List.get?_cons_zero, Option.some_inj] at hget
  have := hmax 1 ⟨1500, "b"⟩ (by decide) (by decide)
  rw [← hget] at this
  revert this
  decide

/-- C5 (amended): for every `Lyric` with sorted nonempty captions,
`get_index(t)` adjusts the time to `|t + offset|` (absolute value, no
2-second bias), and whenever some caption is at or before that adjusted time
it returns the position of the last such caption. -/
theorem c5_get_index_greatest (l : Lyric) (t : Int)
    (hsorted : List.Chain' capLE l.captions) (hne : l.captions ≠ []) :
    ∀ (i : Nat) (ci : Caption), l.captions.get? i = some ci →
      ci.timestamp ≤ |t + l.offset| →
      ∃ (j : Nat) (cj : Caption), l.captions.get? j = some cj ∧
        l.get_index t = some j ∧
        cj.timestamp ≤ |t + l.offset| ∧
        ∀ (k : Nat) (ck : Caption), l.captions.get? k = some ck →
          ck.timestamp ≤ |t + l.offset| → k ≤ j := by
  intro i ci hget hts
  cases hc : l.captions with
  | nil => exact absurd hc hne
  | cons c rest =>
    rw [hc] at hget hsorted
    have hhead : c.timestamp ≤ |t + l.offset| := by
      have := sorted_head_le c rest hsorted i ci hget
      omega
    obtain ⟨j, cj, hgetj, heq, htsj, hmax⟩ :=
      getIndexGo_spec rest c |t + l.offset| 0 0 hsorted hhead
    refine ⟨j, cj, hgetj, ?_, htsj, hmax⟩
    rw [Lyric.get_index, hc]
    simp only [Option.some_inj]
    rw [heq]
    omega

/-! ## Offset adjustment (`adjust_offset`) -/

theorem modify_eq_set_of_get? :
    ∀ (l : List Caption) (f : Caption → Caption) (idx : Nat) (c : Caption),
      l.get? idx = some c → l.modify f idx = l.set idx (f c) := by
  intro l
  induction l with
  | nil =>
    intro f idx c h
    simp at h
  | cons x xs ih =>
    intro f idx c h
    cases idx with
    | zero =>
      rw [List.get?_cons_zero, Option.some_inj] at h
      subst h
      rw [List.modify_zero_cons]
      rfl
    | succ n =>
      rw [List.get?_cons_succ] at h
      rw [List.modify_succ_cons, List.set_cons_succ, ih f n c h]

theorem get_index_some (l : Lyric) (t : Int) (hne : l.captions ≠ []) :
    ∃ idx, l.get_index t = some idx := by
  cases hc : l.captions with
  | nil => exact absurd hc hne
  | cons c rest =>
    rw [Lyric.get_index, hc]
    exact ⟨_, rfl⟩

/-- C7: for every `Lyric` with nonempty captions, `adjust_offset(t, delta)`
locates the caption index via `get_index`; if that index is 0 or `t < 11` ms
the delta is added to the global offset and the captions are only re-sorted
(every caption, and in particular every timestamp, unchanged as a
permutation); otherwise the offset is unchanged and only the located caption
is replaced, its timestamp set to `max(old + delta, 0)`, after which the
captions are re-sorted. -/
theorem c7_adjust_offset_frame (l : Lyric) (time_ms : Nat) (delta : Int)
    (hne : l.captions ≠ []) :
    ∃ (idx : Nat) (cidx : Caption), l.get_index (time_ms : Int) = some idx ∧
      l.captions.get? idx = some cidx ∧
      ((idx = 0 ∨ (time_ms : Int) < 11) →
        l.adjust_offset time_ms delta = ⟨l.offset + delta, sortCaptions l.captions⟩ ∧
        (l.adjust_offset time_ms delta).captions.Perm l.captions) ∧
      (¬(idx = 0 ∨ (time_ms : Int) < 11) →
        (l.adjust_offset time_ms delta).offset = l.offset ∧
        (l.adjust_offset time_ms delta).captions =
          sortCaptions (l.captions.set idx ⟨max (cidx.timestamp + delta) 0, cidx.text⟩) ∧
        (l.adjust_offset time_ms delta).captions.Perm
          (l.captions.set idx ⟨max (cidx.timestamp + delta) 0, cidx.text⟩)) := by
  obtain ⟨idx, hidx⟩ := get_index_some l (time_ms : Int) hne
  have hlt : idx < l.captions.length := get_index_lt l _ idx hidx
  have hget : l.captions.get? idx = some (l.captions.get ⟨idx, hlt⟩) :=
    List.get?_eq_some.mpr ⟨hlt, rfl⟩
  refine ⟨idx, l.captions.get ⟨idx, hlt⟩, hidx, hget, ?_, ?_⟩
  · intro hbr
    have hadj : l.adjust_offset time_ms delta = ⟨l.offset + delta, sortCaptions l.captions⟩ := by
      simp only [Lyric.adjust_offset, hidx]
      rw [if_pos hbr]
    refine ⟨hadj, ?_⟩
    rw [hadj]
    exact sortCaptions_perm l.captions
  · intro hbr
    have hmod : l.captions.modify
        (fun c => ⟨if c.timestamp + delta > 0 then c.timestamp + delta else 0, c.text⟩) idx =
        l.captions.set idx ⟨max ((l.captions.get ⟨idx, hlt⟩).timestamp + delta) 0,
          (l.captions.get ⟨idx, hlt⟩).text⟩ := by
      rw [modify_eq_set_of_get? l.captions _ idx _ hget]
      congr 1
      rw [ifPos_eq_max]
    have hadj : l.adjust_offset time_ms delta =
        ⟨l.offset, sortCaptions (l.captions.set idx
          ⟨max ((l.captions.get ⟨idx, hlt⟩).timestamp + delta) 0,
            (l.captions.get ⟨idx, hlt⟩).text⟩)⟩ := by
      simp only [Lyric.adjust_offset, hidx]
      rw [if_neg hbr, hmod]
    rw [hadj]
    exact ⟨rfl, rfl, sortCaptions_perm _⟩

/-! ## Round trip: `lines` of the formatted text -/

theorem finishLine_reverse (L : List Char) (h : L.getLast? ≠ some '\r') :
    finishLine L.reverse = L := by
  rw [finishLine]
  have hh : L.reverse.head? ≠ some '\r' := by
    rw [List.head?_reverse]
    exact h
  rw [if_neg hh, List.reverse_reverse]

theorem linesCharsGo_append (L : List Char) :
    ∀ (acc rest : List Char), '\n' ∉ L →
      linesCharsGo acc (L ++ '\n' :: rest) =
        finishLine (L.reverse ++ acc) :: (if rest = [] then [] else linesCharsGo [] rest) := by
  induction L with
  | nil =>
    intro acc rest _
    rw [List.nil_append, linesCharsGo, if_pos rfl, List.reverse_nil, List.nil_append]
  | cons c L2 ih =>
    intro acc rest hmem
    have hc : c ≠ '\n' := by
      intro he
      exact hmem (he ▸ List.mem_cons_self c L2)
    rw [List.cons_append, linesCharsGo, if_neg hc]
    rw [ih (c :: acc) rest (fun hm => hmem (List.mem_cons_of_mem c hm))]
    congr 2
    simp

/-- A line list is well formed for `lines` round-tripping when no line
contains a newline and no line ends in a carriage return. -/
def GoodLine (L : List Char) : Prop :=
  '\n' ∉ L ∧ L.getLast? ≠ some '\r'

theorem flatten_map_newline_ne_nil (L : List Char) (ls2 : List (List Char)) :
    ((L :: ls2).map (fun x => x ++ ['\n'])).flatten ≠ [] := by
  simp

theorem linesChars_joined :
    ∀ (ls : List (List Char)), (∀ L ∈ ls, GoodLine L) →
      linesChars ((ls.map (fun x => x ++ ['\n'])).flatten) = ls := by
  intro ls
  induction ls with
  | nil =>
    intro _
    rfl
  | cons L ls2 ih =>
    intro hgood
    have hL : GoodLine L := hgood L (List.mem_cons_self L ls2)
    have hshape : ((L :: ls2).map (fun x => x ++ ['\n'])).flatten =
        L ++ '\n' :: ((ls2.map (fun x => x ++ ['\n'])).flatten) := by
      simp
    rw [linesChars, if_neg (flatten_map_newline_ne_nil L ls2), hshape]
    rw [linesCharsGo_append L [] _ hL.1, List.append_nil]
    rw [finishLine_reverse L hL.2]
    rcases ls2 with _ | ⟨L2, ls3⟩
    · rw [if_pos (by simp)]
    · have hne2 : (((L2 :: ls3).map (fun x => x ++ ['\n'])).flatten) ≠ [] :=
        flatten_map_newline_ne_nil L2 ls3
      rw [if_neg hne2]
      have := ih (fun x hx => hgood x (List.mem_cons_of_mem L hx))
      rw [linesChars, if_neg hne2] at this
      rw [this]

/-! ## Round trip: parsing a formatted timestamp -/

theorem isDigit_not_ws (c : Char) (h : c.isDigit = true) : rustIsWhitespace c = false := by
  have hd : '0' ≤ c ∧ c ≤ '9' := by
    rw [Char.isDigit] at h
    simp only [Bool.and_eq_true, decide_eq_true_eq] at h
    exact h
  have h48 : 48 ≤ c.toNat := hd.1
  have h57 : c.toNat ≤ 57 := hd.2
  rw [rustIsWhitespace, decide_eq_false_iff_not]
  intro hcase
  rcases hcase with ⟨h1, h2⟩ | h1 | h1 | h1 | h1 | ⟨h1, h2⟩ | h1 | h1 | h1 | h1 | h1 <;> omega

theorem not_mem_of_all_digits (l : List Char) (hall : l.all Char.isDigit = true) (c : Char)
    (hc : c.isDigit = false) : c ∉ l := by
  intro hm
  have := List.all_eq_true.mp hall c hm
  rw [this] at hc
  exact absurd hc (by decide)

theorem exists_head_digit (l : List Char) (hne : l ≠ []) (hall : l.all Char.isDigit = true) :
    ∃ d r, l = d :: r ∧ d.isDigit = true := by
  cases l with
  | nil => exact absurd rfl hne
  | cons d r =>
    simp only [List.all_cons, Bool.and_eq_true] at hall
    exact ⟨d, r, rfl, hall.1⟩

theorem fmt2_ne_nil (n : Nat) : fmt2 n ≠ [] := by
  rw [fmt2]
  by_cases h : n < 10
  · rw [if_pos h]
    simp
  · rw [if_neg h]
    exact natToChars_ne_nil n

theorem fmt2_all_digits (n : Nat) : (fmt2 n).all Char.isDigit = true := by
  rw [fmt2]
  by_cases h : n < 10
  · rw [if_pos h]
    simp only [List.all_cons, Bool.and_eq_true]
    exact ⟨by decide, natToChars_all_digits n⟩
  · rw [if_neg h]
    exact natToChars_all_digits n

theorem charsToNat_cons_zero (l : List Char) : charsToNat ('0' :: l) = charsToNat l := rfl

theorem charsToNat_fmt2 (n : Nat) : charsToNat (fmt2 n) = n := by
  rw [fmt2]
  by_cases h : n < 10
  · rw [if_pos h, charsToNat_cons_zero, charsToNat_natToChars]
  · rw [if_neg h, charsToNat_natToChars]

theorem parseU32_fmt2 (n : Nat) (h : n ≤ 4294967295) : parseU32 (fmt2 n) = some n := by
  rw [parseU32_digits (fmt2 n) (fmt2_ne_nil n) (fmt2_all_digits n)
    (by rw [charsToNat_fmt2]; exact h), charsToNat_fmt2]

theorem time_lrc_shape (ts : Nat) :
    time_lrc ts = fmt2 (ts / 1000 / 60 % 60) ++ ':' ::
      (fmt2 (ts / 1000 % 60) ++ '.' :: fmt2 (ts % 1000 / 10)) := by
  rw [time_lrc]
  simp [List.append_assoc]

theorem mem_time_lrc (ts : Nat) (c : Char) (hm : c ∈ time_lrc ts) :
    c.isDigit = true ∨ c = ':' ∨ c = '.' := by
  rw [time_lrc_shape] at hm
  rcases List.mem_append.mp hm with h | h
  · exact Or.inl (List.all_eq_true.mp (fmt2_all_digits _) c h)
  · rcases List.mem_cons.mp h with h | h
    · exact Or.inr (Or.inl h)
    · rcases List.mem_append.mp h with h | h
      · exact Or.inl (List.all_eq_true.mp (fmt2_all_digits _) c h)
      · rcases List.mem_cons.mp h with h | h
        · exact Or.inr (Or.inr h)
        · exact Or.inl (List.all_eq_true.mp (fmt2_all_digits _) c h)

theorem parse_time_time_lrc (ts : Nat) (hlt : ts < 3600000) (h10 : ts % 10 = 0)
    (h990 : ts % 1000 ≠ 990) : Caption.parse_time (time_lrc ts) = some ts := by
  have hs1 : splitFirst ':' (time_lrc ts) =
      some (fmt2 (ts / 1000 / 60 % 60),
        fmt2 (ts / 1000 % 60) ++ '.' :: fmt2 (ts % 1000 / 10)) := by
    rw [time_lrc_shape]
    exact splitFirst_append_cons ':' _ _
      (not_mem_of_all_digits _ (fmt2_all_digits _) ':' (by decide))
  have hs2 : splitFirst '.' (fmt2 (ts / 1000 % 60) ++ '.' :: fmt2 (ts % 1000 / 10)) =
      some (fmt2 (ts / 1000 % 60), fmt2 (ts % 1000 / 10)) :=
    splitFirst_append_cons '.' _ _
      (not_mem_of_all_digits _ (fmt2_all_digits _) '.' (by decide))
  have hcc : ts % 1000 / 10 < 99 := by omega
  simp only [Caption.parse_time, hs1, hs2, parseU32_fmt2 _ (by omega : ts / 1000 / 60 % 60 ≤ 4294967295),
    parseU32_fmt2 _ (by omega : ts / 1000 % 60 ≤ 4294967295),
    parseU32_fmt2 _ (by omega : ts % 1000 / 10 ≤ 4294967295), if_pos hcc, Option.some_inj]
  omega

/-! ## Round trip: parsing a formatted line -/

/-- The caption line as written by `Caption::as_lrc`, without the trailing
newline of `writeln!`. -/
def captionLineCore (c : Caption) : List Char :=
  '[' :: time_lrc (i64ToU64OrZero c.timestamp) ++ ']' :: c.text.data

/-- The `[offset:N]` line written by `Lyric::as_lrc_text`, without the
trailing newline. -/
def offsetLineCore (off : Int) : List Char :=
  offsetTagChars ++ intToChars off ++ [']']

theorem as_lrc_eq_core (c : Caption) : c.as_lrc = captionLineCore c ++ ['\n'] := by
  rw [Caption.as_lrc, captionLineCore]

theorem as_lrc_text_eq_lines (l : Lyric) :
    (l.as_lrc_text).data =
      ((((if l.offset ≠ 0 then [offsetLineCore l.offset] else []) ++
        l.captions.map captionLineCore).map (fun x => x ++ ['\n'])).flatten) := by
  have hcap : (l.captions.map Caption.as_lrc).flatten =
      ((l.captions.map captionLineCore).map (fun x => x ++ ['\n'])).flatten := by
    rw [List.map_map]
    congr 1
  show (if l.offset ≠ 0 then offsetTagChars ++ intToChars l.offset ++ [']', '\n'] else [])
      ++ (l.captions.map Caption.as_lrc).flatten = _
  by_cases h : l.offset ≠ 0
  · rw [if_pos h, if_pos h, hcap, offsetLineCore]
    simp [List.append_assoc]
  · rw [if_neg h, if_neg h, hcap]
    simp

/-- The conditions under which a caption formats-then-parses exactly: a
representable nonnegative timestamp below one hour, on a centisecond boundary
whose centisecond field is not 99, and a text without line breaks whose last
character is not Unicode whitespace (the set `str::trim` strips). -/
def RoundTripCaption (c : Caption) : Prop :=
  0 ≤ c.timestamp ∧ c.timestamp < 3600000 ∧ c.timestamp % 10 = 0 ∧
    c.timestamp % 1000 ≠ 990 ∧ '\n' ∉ c.text.data ∧
    ∀ ch, c.text.data.getLast? = some ch → rustIsWhitespace ch = false

theorem i64ToU64OrZero_toNat (i : Int) (h : 0 ≤ i) : i64ToU64OrZero i = i.toNat := by
  rw [i64ToU64OrZero, if_neg (by omega)]

theorem parse_line_captionLineCore (c : Caption) (h : RoundTripCaption c) :
    Caption.parse_line (captionLineCore c) = some c := by
  obtain ⟨h0, hlt, h10, h990, -, -⟩ := h
  have hts : i64ToU64OrZero c.timestamp = c.timestamp.toNat := i64ToU64OrZero_toNat _ h0
  have hs1 : splitFirst '[' (captionLineCore c) =
      some ([], time_lrc (i64ToU64OrZero c.timestamp) ++ ']' :: c.text.data) := by
    rw [captionLineCore]
    simp [splitFirst]
  have hs2 : splitFirst ']' (time_lrc (i64ToU64OrZero c.timestamp) ++ ']' :: c.text.data) =
      some (time_lrc (i64ToU64OrZero c.timestamp), c.text.data) := by
    apply splitFirst_append_cons
    intro hm
    rcases mem_time_lrc _ _ hm with hd | hd | hd
    · exact absurd hd (by decide)
    · exact absurd hd (by decide)
    · exact absurd hd (by decide)
  have hpt : Caption.parse_time (time_lrc (i64ToU64OrZero c.timestamp)) =
      some c.timestamp.toNat := by
    rw [hts]
    exact parse_time_time_lrc c.timestamp.toNat (by omega) (by omega) (by omega)
  simp only [Caption.parse_line, hs1, hs2, hpt, Option.some_inj]
  have hu : u64ToI64OrZero c.timestamp.toNat = c.timestamp := by
    rw [u64ToI64OrZero, if_pos (by omega)]
    omega
  rw [hu]

theorem string_mk_data (s : String) : String.mk s.data = s := rfl

theorem getLast?_mem_chars : ∀ (l : List Char) (a : Char), l.getLast? = some a → a ∈ l := by
  intro l
  induction l with
  | nil =>
    intro a h
    simp at h
  | cons x xs ih =>
    intro a h
    cases xs with
    | nil =>
      simp only [List.getLast?_singleton, Option.some_inj] at h
      simp [h]
    | cons y ys =>
      rw [List.getLast?_cons_cons] at h
      exact List.mem_cons_of_mem x (ih a h)

theorem mem_intToChars (i : Int) (ch : Char) (hm : ch ∈ intToChars i) :
    ch = '-' ∨ ch.isDigit = true := by
  rw [intToChars] at hm
  by_cases h : i < 0
  · rw [if_pos h] at hm
    rcases List.mem_cons.mp hm with h2 | h2
    · exact Or.inl h2
    · exact Or.inr (List.all_eq_true.mp (natToChars_all_digits _) ch h2)
  · rw [if_neg h] at hm
    exact Or.inr (List.all_eq_true.mp (natToChars_all_digits _) ch hm)

theorem intToChars_ne_nil (i : Int) : intToChars i ≠ [] := by
  rw [intToChars]
  by_cases h : i < 0
  · rw [if_pos h]
    simp
  · rw [if_neg h]
    exact natToChars_ne_nil _

theorem intToChars_head_not_ws (i : Int) :
    ∀ c rest, intToChars i = c :: rest → rustIsWhitespace c = false := by
  intro c rest h
  have hm : c ∈ intToChars i := by
    rw [h]
    exact List.mem_cons_self c rest
  rcases mem_intToChars i c hm with h2 | h2
  · rw [h2]
    decide
  · exact isDigit_not_ws c h2

theorem intToChars_getLast_digit (i : Int) :
    ∀ c, (intToChars i).getLast? = some c → c.isDigit = true := by
  intro c h
  rw [intToChars] at h
  by_cases hneg : i < 0
  · rw [if_pos hneg] at h
    obtain ⟨d, r, hd, -⟩ := exists_head_digit (natToChars i.natAbs)
      (natToChars_ne_nil _) (natToChars_all_digits _)
    rw [hd, List.getLast?_cons_cons] at h
    have hm := getLast?_mem_chars _ _ h
    rw [← hd] at hm
    exact List.all_eq_true.mp (natToChars_all_digits _) c hm
  · rw [if_neg hneg] at h
    exact List.all_eq_true.mp (natToChars_all_digits _) c (getLast?_mem_chars _ _ h)

theorem intToChars_getLast_not_ws (i : Int) :
    ∀ c, (intToChars i).getLast? = some c → rustIsWhitespace c = false := by
  intro c h
  exact isDigit_not_ws c (intToChars_getLast_digit i c h)

theorem trim_intToChars (i : Int) : trimChars (intToChars i) = intToChars i :=
  trimChars_eq_self (intToChars i) (intToChars_ne_nil i) (intToChars_head_not_ws i)
    (intToChars_getLast_not_ws i)

theorem goodline_offset (off : Int) : GoodLine (offsetLineCore off) := by
  constructor
  · intro hm
    rw [offsetLineCore] at hm
    rcases List.mem_append.mp hm with h | h
    · rcases List.mem_append.mp h with h | h
      · revert h
        decide
      · rcases mem_intToChars off '\n' h with h2 | h2
        · exact absurd h2 (by decide)
        · exact absurd h2 (by decide)
    · revert h
      decide
  · intro hlast
    have hshape : offsetLineCore off = (offsetTagChars ++ intToChars off) ++ [']'] := by
      rw [offsetLineCore, List.append_assoc]
    rw [hshape, List.getLast?_concat] at hlast
    simp at hlast

theorem captionLineCore_shape (c : Caption) :
    captionLineCore c = '[' :: (time_lrc (i64ToU64OrZero c.timestamp) ++ ']' :: c.text.data) := by
  rw [captionLineCore]
  simp

theorem goodline_caption (c : Caption) (h : RoundTripCaption c) :
    GoodLine (captionLineCore c) := by
  obtain ⟨-, -, -, -, hnl, hws⟩ := h
  constructor
  · intro hm
    rw [captionLineCore_shape] at hm
    rcases List.mem_cons.mp hm with h2 | h2
    · exact absurd h2 (by decide)
    · rcases List.mem_append.mp h2 with h3 | h3
      · rcases mem_time_lrc _ _ h3 with h4 | h4 | h4
        · exact absurd h4 (by decide)
        · exact absurd h4 (by decide)
        · exact absurd h4 (by decide)
      · rcases List.mem_cons.mp h3 with h4 | h4
        · exact absurd h4 (by decide)
        · exact hnl h4
  · rw [captionLineCore_shape]
    intro hlast
    cases htext : c.text.data with
    | nil =>
      rw [htext] at hlast
      have : ('[' :: (time_lrc (i64ToU64OrZero c.timestamp) ++ [']'])).getLast? = some ']' := by
        have h1 : '[' :: (time_lrc (i64ToU64OrZero c.timestamp) ++ [']']) =
            ('[' :: time_lrc (i64ToU64OrZero c.timestamp)) ++ [']'] := by simp
        rw [h1]
        exact List.getLast?_concat _
      rw [this] at hlast
      simp at hlast
    | cons t ts =>
      rw [htext] at hlast
      have h1 : '[' :: (time_lrc (i64ToU64OrZero c.timestamp) ++ ']' :: (t :: ts)) =
          ('[' :: time_lrc (i64ToU64OrZero c.timestamp) ++ [']']) ++ (t :: ts) := by simp
      rw [h1, List.getLast?_append] at hlast
      have h2 : (t :: ts).getLast? = some '\r' := by
        cases hg : (t :: ts).getLast? with
        | none => simp at hg
        | some x =>
          rw [hg] at hlast
          rw [show ∀ (o : Option Char), (some x).or o = some x from fun o => rfl] at hlast
          exact hlast
      have := hws '\r' (htext ▸ h2)
      exact absurd this (by decide)

theorem trim_offsetLineCore (off : Int) : trimChars (offsetLineCore off) = offsetLineCore off := by
  apply trimChars_eq_self
  · rw [offsetLineCore]
    simp [offsetTagChars]
  · intro c rest h
    have : c = '[' := by
      rw [offsetLineCore, offsetTagChars] at h
      simp only [List.cons_append, List.cons.injEq] at h
      exact h.1.symm
    rw [this]
    decide
  · intro c hlast
    have hshape : offsetLineCore off = (offsetTagChars ++ intToChars off) ++ [']'] := by
      rw [offsetLineCore, List.append_assoc]
    rw [hshape, List.getLast?_concat, Option.some_inj] at hlast
    rw [← hlast]
    decide

theorem trim_captionLineCore (c : Caption) (h : RoundTripCaption c) :
    trimChars (captionLineCore c) = captionLineCore c := by
  apply trimChars_eq_self
  · rw [captionLineCore_shape]
    simp
  · intro ch rest hh
    have : ch = '[' := by
      rw [captionLineCore_shape] at hh
      simp only [List.cons.injEq] at hh
      exact hh.1.symm
    rw [this]
    decide
  · intro ch hlast
    obtain ⟨-, -, -, -, -, hws⟩ := h
    cases htext : c.text.data with
    | nil =>
      rw [captionLineCore_shape, htext] at hlast
      have hshape : ('[' :: (time_lrc (i64ToU64OrZero c.timestamp) ++ [']'])) =
          ('[' :: time_lrc (i64ToU64OrZero c.timestamp)) ++ [']'] := by simp
      rw [hshape, List.getLast?_concat, Option.some_inj] at hlast
      rw [← hlast]
      decide
    | cons t ts =>
      rw [captionLineCore_shape, htext] at hlast
      have hshape : ('[' :: (time_lrc (i64ToU64OrZero c.timestamp) ++ ']' :: (t :: ts))) =
          ('[' :: time_lrc (i64ToU64OrZero c.timestamp) ++ [']']) ++ (t :: ts) := by simp
      rw [hshape, List.getLast?_append] at hlast
      cases hg : (t :: ts).getLast? with
      | none => simp at hg
      | some x =>
        rw [hg] at hlast
        rw [show ∀ (o : Option Char), (some x).or o = some x from fun o => rfl] at hlast
        rw [Option.some_inj] at hlast
        subst hlast
        exact hws x (htext ▸ hg)

/-! ## Round trip: the line loop -/

theorem processLine_offsetLine (st : Int × List Caption) (off : Int)
    (h1 : -9223372036854775808 ≤ off) (h2 : off ≤ 9223372036854775807) :
    processLine st (offsetLineCore off) = (off, st.2) := by
  rw [processLine]
  simp only [trim_offsetLineCore]
  rw [if_neg (by rw [offsetLineCore, offsetTagChars]; simp)]
  have hstart : startsWithChars offsetTagChars (offsetLineCore off) = true := by
    have hshape : offsetLineCore off = offsetTagChars ++ (intToChars off ++ [']']) := by
      rw [offsetLineCore, List.append_assoc]
    rw [hshape]
    exact startsWithChars_append _ _
  rw [if_pos hstart]
  have hdrop : (offsetLineCore off).drop 8 = intToChars off ++ [']'] := by
    have hshape : offsetLineCore off = offsetTagChars ++ (intToChars off ++ [']']) := by
      rw [offsetLineCore, List.append_assoc]
    rw [hshape]
    have h8 : (8 : Nat) = offsetTagChars.length := by rw [offsetTagChars]; rfl
    rw [h8, List.drop_left]
  rw [hdrop]
  have hsplit : splitFirst ']' (intToChars off ++ [']']) = some (intToChars off, []) := by
    have : intToChars off ++ [']'] = intToChars off ++ ']' :: [] := rfl
    rw [this]
    apply splitFirst_append_cons
    intro hm
    rcases mem_intToChars off ']' hm with hx | hx
    · exact absurd hx (by decide)
    · exact absurd hx (by decide)
  simp only [hsplit, trim_intToChars, parseI64_intToChars off h1 h2]

theorem processLine_captionLine (st : Int × List Caption) (c : Caption)
    (h : RoundTripCaption c) :
    processLine st (captionLineCore c) = (st.1, st.2 ++ [c]) := by
  rw [processLine]
  simp only [trim_captionLineCore c h]
  rw [if_neg (by rw [captionLineCore_shape]; simp)]
  obtain ⟨d, r, hfmt, hd⟩ := exists_head_digit (fmt2 (i64ToU64OrZero c.timestamp / 1000 / 60 % 60))
    (fmt2_ne_nil _) (fmt2_all_digits _)
  have hshape2 : captionLineCore c = '[' :: d ::
      (r ++ ':' :: (fmt2 (i64ToU64OrZero c.timestamp / 1000 % 60) ++
        '.' :: fmt2 (i64ToU64OrZero c.timestamp % 1000 / 10)) ++ ']' :: c.text.data) := by
    rw [captionLineCore_shape, time_lrc_shape, hfmt]
    simp [List.append_assoc]
  have hstart : startsWithChars offsetTagChars (captionLineCore c) = false := by
    rw [hshape2, offsetTagChars]
    apply startsWithChars_false_of_second
    intro he
    rw [← he] at hd
    exact absurd hd (by decide)
  rw [if_neg (by rw [hstart]; simp)]
  rw [captionLineCore_shape]
  simp only [captionStep, if_true]
  rw [← captionLineCore_shape]
  simp only [parse_line_captionLineCore c h]

theorem foldl_processLine_captions :
    ∀ (caps : List Caption) (st : Int × List Caption), (∀ c ∈ caps, RoundTripCaption c) →
      (caps.map captionLineCore).foldl processLine st = (st.1, st.2 ++ caps) := by
  intro caps
  induction caps with
  | nil =>
    intro st _
    simp
  | cons c cs ih =>
    intro st hgood
    rw [List.map_cons, List.foldl_cons]
    rw [processLine_captionLine st c (hgood c (List.mem_cons_self c cs))]
    rw [ih (st.1, st.2 ++ [c]) (fun x hx => hgood x (List.mem_cons_of_mem c hx))]
    simp

theorem mergeRecGo_eq_self :
    ∀ (rest : List Caption) (c : Caption), List.Chain' capGap (c :: rest) →
      mergeRecGo c rest = c :: rest := by
  intro rest
  induction rest with
  | nil =>
    intro c _
    rfl
  | cons x xs ih =>
    intro c h
    have hgap : capGap c x := (List.chain'_cons.mp h).1
    rw [mergeRecGo, if_neg (by
      show ¬ x.timestamp - c.timestamp < 2000
      have : 2000 ≤ x.timestamp - c.timestamp := hgap
      omega)]
    rw [ih x (List.chain'_cons.mp h).2]

theorem mergeRec_eq_self (l : List Caption) (h : List.Chain' capGap l) : mergeRec l = l := by
  cases l with
  | nil => rfl
  | cons c rest => exact mergeRecGo_eq_self rest c h

theorem parseState_as_lrc_text (l : Lyric)
    (hcaps : ∀ c ∈ l.captions, RoundTripCaption c)
    (hoff1 : -9223372036854775808 ≤ l.offset) (hoff2 : l.offset ≤ 9223372036854775807) :
    parseState (l.as_lrc_text).data = (l.offset, l.captions) := by
  rw [parseState, as_lrc_text_eq_lines]
  rw [linesChars_joined _ (by
    intro L hL
    rcases List.mem_append.mp hL with h | h
    · by_cases hoff : l.offset ≠ 0
      · rw [if_pos hoff] at h
        rw [List.mem_singleton] at h
        exact h ▸ goodline_offset l.offset
      · rw [if_neg hoff] at h
        simp at h
    · obtain ⟨c, hc, hceq⟩ := List.mem_map.mp h
      exact hceq ▸ goodline_caption c (hcaps c hc))]
  by_cases hoff : l.offset ≠ 0
  · rw [if_pos hoff]
    rw [List.singleton_append, List.foldl_cons]
    rw [processLine_offsetLine (0, []) l.offset hoff1 hoff2]
    rw [foldl_processLine_captions l.captions (l.offset, []) hcaps]
    simp
  · rw [if_neg hoff]
    rw [List.nil_append]
    rw [foldl_processLine_captions l.captions (0, []) hcaps]
    push_neg at hoff
    rw [hoff]
    simp

/-- C2 (counterexample): formatting truncates a caption timestamp to
centiseconds (`[00:12.30]`), so a timestamp of 12305 ms does not survive the
format-then-parse round trip even though the lyric is already merged. -/
theorem c2_counterexample :
    Lyric.from_str (Lyric.as_lrc_text ⟨0, [⟨12305, "X"⟩]⟩) ≠
      Lyric.merge_adjacent ⟨0, [⟨12305, "X"⟩]⟩ := by
  decide

/-- C2 (amended): for every `Lyric` whose offset fits in `i64` and whose
captions have representable timestamps below one hour on an exact centisecond
boundary with centisecond field other than 99, and texts free of line breaks
and of trailing Unicode whitespace, parsing the serialized form yields exactly the
original offset together with the original captions sorted and then merged;
in particular it is the identity on an already sorted and merged lyric. -/
theorem c2_format_parse_roundtrip (l : Lyric)
    (hcaps : ∀ c ∈ l.captions, RoundTripCaption c)
    (hoff1 : -9223372036854775808 ≤ l.offset) (hoff2 : l.offset ≤ 9223372036854775807) :
    Lyric.from_str l.as_lrc_text = Lyric.merge_adjacent ⟨l.offset, sortCaptions l.captions⟩ ∧
    (List.Chain' capLE l.captions → List.Chain' capGap l.captions →
      Lyric.from_str l.as_lrc_text = l) := by
  have hps := parseState_as_lrc_text l hcaps hoff1 hoff2
  have h1 : Lyric.from_str l.as_lrc_text =
      Lyric.merge_adjacent ⟨l.offset, sortCaptions l.captions⟩ := by
    rw [Lyric.from_str, hps]
  refine ⟨h1, ?_⟩
  intro hsort hgap
  rw [h1, merge_adjacent_eq_mergeRec]
  show (⟨l.offset, mergeRec (sortCaptions l.captions)⟩ : Lyric) = l
  rw [sortCaptions_eq_self _ hsort, mergeRec_eq_self _ hgap]

/-! ## C6: timestamp fraction disambiguation -/

/-- C6 (counterexample): the source disambiguates with `< 99`, not `< 100`:
a fractional part of 99 is taken as milliseconds and contributes 99 ms, not
990 ms as the claim states. -/
theorem c6_counterexample :
    Caption.parse_time "00:00.99".data = some 99 ∧
      Caption.parse_time "00:00.99".data ≠ some 990 := by
  exact ⟨by decide, by decide⟩

/-- C6 (amended): for every accepted timestamp `mm:ss.f`, the fractional part
contributes `f · 10` ms (centiseconds) exactly when `f < 99`, and `f` ms
otherwise; in particular `[00:12.305]X` parses to the caption `(12305, "X")`
and a fractional part of 99 contributes 99 ms. -/
theorem c6_parse_time_fraction :
    (∀ (a b c : List Char), a ≠ [] → b ≠ [] → c ≠ [] →
      a.all Char.isDigit = true → b.all Char.isDigit = true → c.all Char.isDigit = true →
      charsToNat a ≤ 4294967295 → charsToNat b ≤ 4294967295 → charsToNat c ≤ 4294967295 →
      Caption.parse_time (a ++ ':' :: (b ++ '.' :: c)) =
        some ((charsToNat a * 60 + charsToNat b) * 1000 +
          (if charsToNat c < 99 then charsToNat c * 10 else charsToNat c))) ∧
    Caption.parse_line "[00:12.305]X".data = some ⟨12305, "X"⟩ := by
  constructor
  · intro a b c ha hb hc hda hdb hdc hba hbb hbc
    have hs1 : splitFirst ':' (a ++ ':' :: (b ++ '.' :: c)) = some (a, b ++ '.' :: c) :=
      splitFirst_append_cons ':' _ _ (not_mem_of_all_digits a hda ':' (by decide))
    have hs2 : splitFirst '.' (b ++ '.' :: c) = some (b, c) :=
      splitFirst_append_cons '.' _ _ (not_mem_of_all_digits b hdb '.' (by decide))
    simp only [Caption.parse_time, hs1, hs2, parseU32_digits a ha hda hba,
      parseU32_digits b hb hdb hbb, parseU32_digits c hc hdc hbc]
  · decide

/-! ## The podcast duration parser (`src/lib/src/podcast/mod.rs`) -/

/-- One optional `(?::(\d+))?` group of `RE_DURATION`: greedy, so it consumes
a colon followed by a nonempty digit run, or nothing. -/
def optColonGroup (l : List Char) : Option (List Char) × List Char :=
  match l with
  | ':' :: rest =>
    if rest.takeWhile Char.isDigit = [] then (none, l)
    else (some (rest.takeWhile Char.isDigit), rest.dropWhile Char.isDigit)
  | _ => (none, l)

/-- Model of `RE_DURATION` = `(\d+)(?::(\d+))?(?::(\d+))?`: the leftmost match
starts at the first digit; each group is a maximal digit run. -/
def reDurationCaptures (l : List Char) :
    Option (List Char × Option (List Char) × Option (List Char)) :=
  match l.dropWhile (fun c => !c.isDigit) with
  | [] => none
  | c :: rest =>
    let g1 := (c :: rest).takeWhile Char.isDigit
    let r1 := (c :: rest).dropWhile Char.isDigit
    let p2 := optColonGroup r1
    let p3 := optColonGroup p2.2
    some (g1, p2.1, p3.1)

/-- Parse every present capture group as `i32` in order, aborting on the
first failure: the `times` / `counter` loop of `duration_to_int`. -/
def parseAllI32 : List (List Char) → Option (List Nat)
  | [] => some []
  | g :: gs =>
    match parseUnsignedCore 2147483647 g with
    | none => none
    | some v =>
      match parseAllI32 gs with
      | none => none
      | some vs => some (v :: vs)

/-- Embedding of `duration_to_int`: run the regex, parse every present capture
group as `i32` (any failure yields `None`), then combine by the number of
groups.  The `i32` arithmetic of the source is carried out in `Int`. -/
def duration_to_int (duration : Option String) : Option Int :=
  match duration with
  | none => none
  | some s =>
    match reDurationCaptures s.data with
    | none => none
    | some (g1, g2, g3) =>
      match parseAllI32 ([g1] ++ g2.toList ++ g3.toList) with
      | none => none
      | some [h, m, sec] => some ((h : Int) * 60 * 60 + (m : Int) * 60 + (sec : Int))
      | some [m, sec] => some ((m : Int) * 60 + (sec : Int))
      | some [sec] => some ((sec : Int))
      | some _ => none


theorem all_digits_takeWhile (l : List Char) (h : l.all Char.isDigit = true) :
    l.takeWhile Char.isDigit = l := by
  induction l with
  | nil => rfl
  | cons x xs ih =>
    simp only [List.all_cons, Bool.and_eq_true] at h
    rw [List.takeWhile_cons, if_pos h.1, ih h.2]

theorem all_digits_dropWhile (l : List Char) (h : l.all Char.isDigit = true) :
    l.dropWhile Char.isDigit = [] := by
  induction l with
  | nil => rfl
  | cons x xs ih =>
    simp only [List.all_cons, Bool.and_eq_true] at h
    rw [List.dropWhile_cons, if_pos h.1, ih h.2]

theorem span_append_stop (a : List Char) (y : Char) (rest : List Char)
    (ha : a.all Char.isDigit = true) (hy : y.isDigit = false) :
    (a ++ y :: rest).takeWhile Char.isDigit = a ∧
      (a ++ y :: rest).dropWhile Char.isDigit = y :: rest := by
  induction a with
  | nil =>
    constructor
    · rw [List.nil_append, List.takeWhile_cons, if_neg (by rw [hy]; simp)]
    · rw [List.nil_append, List.dropWhile_cons, if_neg (by rw [hy]; simp)]
  | cons x xs ih =>
    simp only [List.all_cons, Bool.and_eq_true] at ha
    obtain ⟨ih1, ih2⟩ := ih ha.2
    constructor
    · rw [List.cons_append, List.takeWhile_cons, if_pos ha.1, ih1]
    · rw [List.cons_append, List.dropWhile_cons, if_pos ha.1, ih2]

theorem optColonGroup_nil : optColonGroup [] = (none, []) := rfl

theorem dropWhile_neg_head (d : Char) (rest : List Char) (hd : d.isDigit = true) :
    (d :: rest).dropWhile (fun c => !c.isDigit) = d :: rest := by
  rw [List.dropWhile_cons, if_neg (by rw [hd]; simp)]

theorem reDurationCaptures_cons (d : Char) (rest : List Char) (hd : d.isDigit = true) :
    reDurationCaptures (d :: rest) =
      some ((d :: rest).takeWhile Char.isDigit,
        (optColonGroup ((d :: rest).dropWhile Char.isDigit)).1,
        (optColonGroup (optColonGroup ((d :: rest).dropWhile Char.isDigit)).2).1) := by
  have hdw : (d :: rest).dropWhile (fun ch => !ch.isDigit) = d :: rest :=
    dropWhile_neg_head d rest hd
  simp only [reDurationCaptures, hdw]

theorem reDuration_three (a b c : List Char) (ha : a ≠ []) (hb : b ≠ []) (hc : c ≠ [])
    (hda : a.all Char.isDigit = true) (hdb : b.all Char.isDigit = true)
    (hdc : c.all Char.isDigit = true) :
    reDurationCaptures (a ++ ':' :: (b ++ ':' :: c)) = some (a, some b, some c) := by
  obtain ⟨d, r, hshape, hd⟩ := exists_head_digit a ha hda
  have hfull : a ++ ':' :: (b ++ ':' :: c) = d :: (r ++ ':' :: (b ++ ':' :: c)) := by
    rw [hshape]
    rfl
  obtain ⟨htw1, hdw1⟩ := span_append_stop a ':' (b ++ ':' :: c) hda (by decide)
  have h2 : optColonGroup (':' :: (b ++ ':' :: c)) = (some b, ':' :: c) := by
    rw [optColonGroup]
    obtain ⟨htw2, hdw2⟩ := span_append_stop b ':' c hdb (by decide)
    rw [htw2, hdw2, if_neg hb]
  have h3 : optColonGroup (':' :: c) = (some c, []) := by
    rw [optColonGroup]
    rw [all_digits_takeWhile c hdc, all_digits_dropWhile c hdc, if_neg hc]
  rw [hfull, reDurationCaptures_cons d _ hd, ← hfull, htw1, hdw1, h2, h3]

theorem reDuration_two (a b : List Char) (ha : a ≠ []) (hb : b ≠ [])
    (hda : a.all Char.isDigit = true) (hdb : b.all Char.isDigit = true) :
    reDurationCaptures (a ++ ':' :: b) = some (a, some b, none) := by
  obtain ⟨d, r, hshape, hd⟩ := exists_head_digit a ha hda
  have hfull : a ++ ':' :: b = d :: (r ++ ':' :: b) := by
    rw [hshape]
    rfl
  obtain ⟨htw1, hdw1⟩ := span_append_stop a ':' b hda (by decide)
  have h2 : optColonGroup (':' :: b) = (some b, []) := by
    rw [optColonGroup]
    rw [all_digits_takeWhile b hdb, all_digits_dropWhile b hdb, if_neg hb]
  rw [hfull, reDurationCaptures_cons d _ hd, ← hfull, htw1, hdw1, h2, optColonGroup_nil]

theorem reDuration_one (a : List Char) (ha : a ≠ []) (hda : a.all Char.isDigit = true) :
    reDurationCaptures a = some (a, none, none) := by
  obtain ⟨d, r, hshape, hd⟩ := exists_head_digit a ha hda
  rw [hshape, reDurationCaptures_cons d _ hd, ← hshape]
  rw [all_digits_takeWhile a hda, all_digits_dropWhile a hda, optColonGroup_nil]
  rfl

theorem reDuration_no_digit (s : List Char) (h : ∀ ch ∈ s, ch.isDigit = false) :
    reDurationCaptures s = none := by
  have hdw : s.dropWhile (fun ch => !ch.isDigit) = [] := by
    induction s with
    | nil => rfl
    | cons x xs ih =>
      rw [List.dropWhile_cons, if_pos (by rw [h x (List.mem_cons_self x xs)]; simp)]
      exact ih (fun ch hm => h ch (List.mem_cons_of_mem x hm))
  rw [reDurationCaptures, hdw]

theorem parseAllI32_three (a b c : List Char) (ha : a ≠ []) (hb : b ≠ []) (hc : c ≠ [])
    (hda : a.all Char.isDigit = true) (hdb : b.all Char.isDigit = true)
    (hdc : c.all Char.isDigit = true) (hba : charsToNat a ≤ 2147483647)
    (hbb : charsToNat b ≤ 2147483647) (hbc : charsToNat c ≤ 2147483647) :
    parseAllI32 [a, b, c] = some [charsToNat a, charsToNat b, charsToNat c] := by
  simp only [parseAllI32, parseUnsignedCore_digits _ a ha hda hba,
    parseUnsignedCore_digits _ b hb hdb hbb, parseUnsignedCore_digits _ c hc hdc hbc]

theorem parseAllI32_two (a b : List Char) (ha : a ≠ []) (hb : b ≠ [])
    (hda : a.all Char.isDigit = true) (hdb : b.all Char.isDigit = true)
    (hba : charsToNat a ≤ 2147483647) (hbb : charsToNat b ≤ 2147483647) :
    parseAllI32 [a, b] = some [charsToNat a, charsToNat b] := by
  simp only [parseAllI32, parseUnsignedCore_digits _ a ha hda hba,
    parseUnsignedCore_digits _ b hb hdb hbb]

theorem parseAllI32_one (a : List Char) (ha : a ≠ []) (hda : a.all Char.isDigit = true)
    (hba : charsToNat a ≤ 2147483647) :
    parseAllI32 [a] = some [charsToNat a] := by
  simp only [parseAllI32, parseUnsignedCore_digits _ a ha hda hba]

/-- C8: the episode duration parser maps `H:MM:SS` (digit runs) to
`H·3600 + MM·60 + SS`, `MM:SS` to `MM·60 + SS`, and `SS` to `SS`, and
returns none for inputs without a digit (such as `"abc"`) and for a missing
input. -/
theorem c8_duration_to_int :
    (∀ (a b c : List Char), a ≠ [] → b ≠ [] → c ≠ [] →
      a.all Char.isDigit = true → b.all Char.isDigit = true → c.all Char.isDigit = true →
      charsToNat a ≤ 2147483647 → charsToNat b ≤ 2147483647 → charsToNat c ≤ 2147483647 →
      duration_to_int (some (String.mk (a ++ ':' :: (b ++ ':' :: c)))) =
        some ((charsToNat a : Int) * 60 * 60 + (charsToNat b : Int) * 60 + (charsToNat c : Int))) ∧
    (∀ (a b : List Char), a ≠ [] → b ≠ [] →
      a.all Char.isDigit = true → b.all Char.isDigit = true →
      charsToNat a ≤ 2147483647 → charsToNat b ≤ 2147483647 →
      duration_to_int (some (String.mk (a ++ ':' :: b))) =
        some ((charsToNat a : Int) * 60 + (charsToNat b : Int))) ∧
    (∀ (a : List Char), a ≠ [] → a.all Char.isDigit = true → charsToNat a ≤ 2147483647 →
      duration_to_int (some (String.mk a)) = some ((charsToNat a : Int))) ∧
    (∀ (s : String), (∀ ch ∈ s.data, ch.isDigit = false) →
      duration_to_int (some s) = none) ∧
    duration_to_int none = none := by
  refine ⟨?_, ?_, ?_, ?_, rfl⟩
  · intro a b c ha hb hc hda hdb hdc hba hbb hbc
    simp only [duration_to_int, reDuration_three a b c ha hb hc hda hdb hdc]
    simp only [Option.toList_some, List.singleton_append, List.cons_append, List.nil_append]
    simp only [parseAllI32_three a b c ha hb hc hda hdb hdc hba hbb hbc]
  · intro a b ha hb hda hdb hba hbb
    simp only [duration_to_int, reDuration_two a b ha hb hda hdb]
    simp only [Option.toList_some, Option.toList_none, List.singleton_append,
      List.cons_append, List.nil_append, List.append_nil]
    simp only [parseAllI32_two a b ha hb hda hdb hba hbb]
  · intro a ha hda hba
    simp only [duration_to_int, reDuration_one a ha hda]
    simp only [Option.toList_none, List.append_nil]
    simp only [parseAllI32_one a ha hda hba]
  · intro s h
    simp only [duration_to_int, reDuration_no_digit s.data h]

/-! ## The library database (`src/lib/src/library_db/mod.rs`)

The SQLite catalog is modelled as a list of track rows; `rusqlite`
transaction semantics are modelled explicitly: statements execute against a
working copy, any statement or commit error drops the working copy so the
caller observes the original catalog (rollback), and a successful commit
replaces the catalog with the working copy.  Statement failures are injected
through boolean oracles, reflecting that every `rusqlite` call returns a
`Result`.
-/

namespace DataBase

/-- A row of the `tracks` table, reduced to the fields the claims need. -/
structure TrackRow where
  /-- The full file path, `file` column (unique per the schema/spec). -/
  file : String
  /-- The stored `last_modified` value (seconds since epoch). -/
  last_modified : Nat
deriving DecidableEq, Repr

/-- Modelled from the spec: `TrackDBInsertable::insert_track` lives in
`library_db/track_db.rs`, which is not under `src/`; per the spec, the track
catalog keeps exactly one row per path, inserted when discovered and updated
when stale, so an insert is an upsert keyed on the `file` path. -/
def insert_track (db : List TrackRow) (r : TrackRow) : List TrackRow :=
  if db.any (fun x => x.file = r.file) then
    db.map (fun x => if x.file = r.file then r else x)
  else db ++ [r]

/-- The insert loop of `add_records` against the transaction's working copy,
with the `i`-th insert failing when `insertFails i`. -/
def runInserts (insertFails : Nat → Bool) : Nat → List TrackRow → List TrackRow →
    Except String (List TrackRow)
  | _, cur, [] => Except.ok cur
  | i, cur, t :: rest =>
    if insertFails i then Except.error "insert failed"
    else runInserts insertFails (i + 1) (insert_track cur t) rest

/-- Embedding of `DataBase::add_records`: one transaction around all inserts;
an insert error or a commit error rolls the whole transaction back (the
caller's catalog is unchanged). -/
def add_records (db : List TrackRow) (tracks : List TrackRow) (insertFails : Nat → Bool)
    (commitFails : Bool) : Except String (List TrackRow) :=
  match runInserts insertFails 0 db tracks with
  | Except.error e => Except.error e
  | Except.ok newDb => if commitFails then Except.error "commit failed" else Except.ok newDb

/-- The delete loop of `delete_records` (`DELETE FROM tracks WHERE file = ?`)
against the transaction's working copy. -/
def runDeletes (deleteFails : Nat → Bool) : Nat → List TrackRow → List String →
    Except String (List TrackRow)
  | _, cur, [] => Except.ok cur
  | i, cur, t :: rest =>
    if deleteFails i then Except.error "delete failed"
    else runDeletes deleteFails (i + 1) (cur.filter (fun r => r.file ≠ t)) rest

/-- Embedding of `DataBase::delete_records`: one transaction around all
deletes; any error rolls the whole transaction back. -/
def delete_records (db : List TrackRow) (tracks : List String) (deleteFails : Nat → Bool)
    (commitFails : Bool) : Except String (List TrackRow) :=
  match runDeletes deleteFails 0 db tracks with
  | Except.error e => Except.error e
  | Except.ok newDb => if commitFails then Except.error "commit failed" else Except.ok newDb

/-- The list of stale paths that `need_delete` computes when its statements
succeed: all rows whose file no longer exists on disk (`fsExists` models
`Path::exists`). -/
def needDeleteList (db : List TrackRow) (fsExists : String → Bool) : List String :=
  (db.filter (fun r => !fsExists r.file)).map (fun r => r.file)

/-- Embedding of `DataBase::need_delete`: `conn.prepare(..)?` and
`stmt.query_map(..)?` are fallible `rusqlite` calls (`queryFails` injects
that); on success the stale paths are returned. -/
def need_delete (db : List TrackRow) (fsExists : String → Bool) (queryFails : Bool) :
    Except String (List String) :=
  if queryFails then Except.error "query failed"
  else Except.ok (needDeleteList db fsExists)

/-- The catalog-writing phase of one `sync_database` pass (the body of the
spawned thread after the walk produced `needUpdates`): `add_records` in one
transaction, then — only if that did not error (`?` aborts the closure) —
`need_delete` followed by `delete_records` in a second transaction.  A
`need_delete` error is logged and swallowed: the deletes are skipped and the
closure still returns `Ok`.  Returns the final catalog and whether the pass
completed without error. -/
def sync_database_write_phase (db : List TrackRow) (needUpdates : List TrackRow)
    (fsExists : String → Bool) (insFails : Nat → Bool) (insCommitFails : Bool)
    (ndFails : Bool) (delFails : Nat → Bool) (delCommitFails : Bool) : List TrackRow × Bool :=
  let step1 : List TrackRow × Bool :=
    if needUpdates.isEmpty then (db, true)
    else
      match add_records db needUpdates insFails insCommitFails with
      | Except.ok d => (d, true)
      | Except.error _ => (db, false)
  if step1.2 = false then step1
  else
    match need_delete step1.1 fsExists ndFails with
    | Except.error _ => (step1.1, true)
    | Except.ok dels =>
      if dels.isEmpty then (step1.1, true)
      else
        match delete_records step1.1 dels delFails delCommitFails with
        | Except.ok d => (d, true)
        | Except.error _ => (step1.1, false)

/-- The property claim C1 states (from the spec sentence): all inserts and
deletes of one sync pass are wrapped in one transaction, so a pass that fails
leaves the catalog exactly as it was. -/
def c1ClaimProp : Prop :=
  ∀ (db : List TrackRow) (needUpdates : List TrackRow) (fsExists : String → Bool)
    (insFails : Nat → Bool) (insCommitFails : Bool) (ndFails : Bool) (delFails : Nat → Bool)
    (delCommitFails : Bool),
    (sync_database_write_phase db needUpdates fsExists insFails insCommitFails ndFails delFails
        delCommitFails).2 = false →
    (sync_database_write_phase db needUpdates fsExists insFails insCommitFails ndFails delFails
        delCommitFails).1 = db

/-- C1 (counterexample): the pass uses two separate transactions — one inside
`add_records`, one inside `delete_records`.  When the insert transaction
commits and the delete transaction then fails, the pass reports failure but
the inserts stay visible, so the catalog is not unchanged on failure. -/
theorem c1_counterexample : ¬ c1ClaimProp := by
  intro h
  have h2 := h [⟨"b", 1⟩] [⟨"a", 5⟩] (fun f => f = "a") (fun _ => false) false false
    (fun _ => true) false (by decide)
  revert h2
  decide

/-- All inserts of a pass applied to a catalog (the effect of a successful
insert transaction). -/
def applyInserts (db : List TrackRow) (tracks : List TrackRow) : List TrackRow :=
  tracks.foldl insert_track db

/-- All deletes applied to a catalog (the effect of a successful delete
transaction). -/
def applyDeletes (db : List TrackRow) (files : List String) : List TrackRow :=
  files.foldl (fun cur t => cur.filter (fun r => r.file ≠ t)) db

theorem runInserts_ok (insertFails : Nat → Bool) :
    ∀ (ts : List TrackRow) (i : Nat) (cur d : List TrackRow),
      runInserts insertFails i cur ts = Except.ok d → d = applyInserts cur ts := by
  intro ts
  induction ts with
  | nil =>
    intro i cur d h
    rw [runInserts] at h
    cases h
    rfl
  | cons t rest ih =>
    intro i cur d h
    rw [runInserts] at h
    by_cases hf : insertFails i
    · rw [if_pos hf] at h
      cases h
    · rw [if_neg hf] at h
      exact ih (i + 1) (insert_track cur t) d h

theorem runDeletes_ok (deleteFails : Nat → Bool) :
    ∀ (ts : List String) (i : Nat) (cur d : List TrackRow),
      runDeletes deleteFails i cur ts = Except.ok d → d = applyDeletes cur ts := by
  intro ts
  induction ts with
  | nil =>
    intro i cur d h
    rw [runDeletes] at h
    cases h
    rfl
  | cons t rest ih =>
    intro i cur d h
    rw [runDeletes] at h
    by_cases hf : deleteFails i
    · rw [if_pos hf] at h
      cases h
    · rw [if_neg hf] at h
      exact ih (i + 1) (cur.filter (fun r => r.file ≠ t)) d h

theorem add_records_ok (db tracks : List TrackRow) (insFails : Nat → Bool)
    (commitFails : Bool) (d : List TrackRow)
    (h : add_records db tracks insFails commitFails = Except.ok d) :
    d = applyInserts db tracks := by
  rw [add_records] at h
  cases hrun : runInserts insFails 0 db tracks with
  | error e =>
    simp only [hrun] at h
    exact absurd h (by simp)
  | ok nd =>
    simp only [hrun] at h
    by_cases hc : commitFails
    · rw [if_pos hc] at h
      cases h
    · rw [if_neg hc] at h
      cases h
      exact runInserts_ok insFails tracks 0 db d hrun

theorem delete_records_ok (db : List TrackRow) (tracks : List String) (delFails : Nat → Bool)
    (commitFails : Bool) (d : List TrackRow)
    (h : delete_records db tracks delFails commitFails = Except.ok d) :
    d = applyDeletes db tracks := by
  rw [delete_records] at h
  cases hrun : runDeletes delFails 0 db tracks with
  | error e =>
    simp only [hrun] at h
    exact absurd h (by simp)
  | ok nd =>
    simp only [hrun] at h
    by_cases hc : commitFails
    · rw [if_pos hc] at h
      cases h
    · rw [if_neg hc] at h
      cases h
      exact runDeletes_ok delFails tracks 0 db d hrun

/-- C1 (amended): one sync pass runs its inserts in one transaction and its
deletes in a second transaction.  Each group is atomic, so the catalog always
ends unchanged, with exactly all inserts applied, or with all inserts and all
deletes applied.  A pass that reports success and whose `need_delete` query
did not fail applied both groups; but a `need_delete` error is only logged,
so a pass can report success having applied the inserts with the deletes
skipped. -/
theorem c1_sync_two_transactions (db : List TrackRow) (needUpdates : List TrackRow)
    (fsExists : String → Bool) (insFails : Nat → Bool) (insCommitFails : Bool)
    (ndFails : Bool) (delFails : Nat → Bool) (delCommitFails : Bool) :
    ((sync_database_write_phase db needUpdates fsExists insFails insCommitFails ndFails delFails
        delCommitFails).1 = db ∨
      (sync_database_write_phase db needUpdates fsExists insFails insCommitFails ndFails delFails
        delCommitFails).1 = applyInserts db needUpdates ∨
      (sync_database_write_phase db needUpdates fsExists insFails insCommitFails ndFails delFails
        delCommitFails).1 =
        applyDeletes (applyInserts db needUpdates)
          (needDeleteList (applyInserts db needUpdates) fsExists)) ∧
    ((sync_database_write_phase db needUpdates fsExists insFails insCommitFails ndFails delFails
        delCommitFails).2 = true → ndFails = false →
      (sync_database_write_phase db needUpdates fsExists insFails insCommitFails ndFails delFails
        delCommitFails).1 =
        applyDeletes (applyInserts db needUpdates)
          (needDeleteList (applyInserts db needUpdates) fsExists)) ∧
    ((sync_database_write_phase db needUpdates fsExists insFails insCommitFails ndFails delFails
        delCommitFails).2 = true → ndFails = true →
      (sync_database_write_phase db needUpdates fsExists insFails insCommitFails ndFails delFails
        delCommitFails).1 = applyInserts db needUpdates) := by
  have hstep1 : ∀ (s : List TrackRow × Bool),
      s = (if needUpdates.isEmpty then (db, true)
        else
          match add_records db needUpdates insFails insCommitFails with
          | Except.ok d => (d, true)
          | Except.error _ => (db, false)) →
      (s.2 = true → s.1 = applyInserts db needUpdates) ∧ (s.2 = false → s.1 = db) := by
    intro s hs
    by_cases hemp : needUpdates.isEmpty
    · rw [if_pos hemp] at hs
      have hnil : needUpdates = [] := List.isEmpty_iff.mp hemp
      subst hs
      constructor
      · intro _
        rw [hnil]
        rfl
      · intro hfalse
        simp at hfalse
    · rw [if_neg hemp] at hs
      cases hadd : add_records db needUpdates insFails insCommitFails with
      | ok d =>
        rw [hadd] at hs
        subst hs
        constructor
        · intro _
          exact add_records_ok db needUpdates insFails insCommitFails d hadd
        · intro hfalse
          simp at hfalse
      | error e =>
        rw [hadd] at hs
        subst hs
        refine ⟨?_, fun _ => rfl⟩
        intro htrue
        simp at htrue
  set s1 : List TrackRow × Bool :=
      (if needUpdates.isEmpty then (db, true)
        else
          match add_records db needUpdates insFails insCommitFails with
          | Except.ok d => (d, true)
          | Except.error _ => (db, false)) with hs1
  obtain ⟨hok1, herr1⟩ := hstep1 s1 hs1
  have hsync : sync_database_write_phase db needUpdates fsExists insFails insCommitFails ndFails
      delFails delCommitFails =
      (if s1.2 = false then s1
        else
          match need_delete s1.1 fsExists ndFails with
          | Except.error _ => (s1.1, true)
          | Except.ok dels =>
            if dels.isEmpty then (s1.1, true)
            else
              match delete_records s1.1 dels delFails delCommitFails with
              | Except.ok d => (d, true)
              | Except.error _ => (s1.1, false)) := rfl
  by_cases hfail1 : s1.2 = false
  · rw [hsync, if_pos hfail1]
    refine ⟨Or.inl (herr1 hfail1), ?_, ?_⟩
    · intro htrue _
      rw [htrue] at hfail1
      simp at hfail1
    · intro htrue _
      rw [htrue] at hfail1
      simp at hfail1
  · have htrue1 : s1.2 = true := by
      revert hfail1
      cases s1.2 <;> simp
    have hins : s1.1 = applyInserts db needUpdates := hok1 htrue1
    rw [hsync, if_neg hfail1]
    by_cases hnd : ndFails = true
    · have hdel : need_delete s1.1 fsExists ndFails = Except.error "query failed" := by
        rw [need_delete, if_pos hnd]
      simp only [hdel]
      refine ⟨Or.inr (Or.inl hins), ?_, fun _ _ => hins⟩
      intro _ hndf
      rw [hndf] at hnd
      exact absurd hnd (by decide)
    · have hdel : need_delete s1.1 fsExists ndFails =
          Except.ok (needDeleteList s1.1 fsExists) := by
        rw [need_delete, if_neg hnd]
      simp only [hdel]
      by_cases hde : (needDeleteList s1.1 fsExists).isEmpty
      · rw [if_pos hde]
        have hnil : needDeleteList s1.1 fsExists = [] := List.isEmpty_iff.mp hde
        have hfinal : s1.1 = applyDeletes (applyInserts db needUpdates)
            (needDeleteList (applyInserts db needUpdates) fsExists) := by
          rw [← hins, hnil]
          rfl
        exact ⟨Or.inr (Or.inr hfinal), fun _ _ => hfinal, fun _ hndt => absurd hndt hnd⟩
      · rw [if_neg hde]
        cases hdel2 : delete_records s1.1 (needDeleteList s1.1 fsExists) delFails
            delCommitFails with
        | ok d =>
          have hfinal : d = applyDeletes (applyInserts db needUpdates)
              (needDeleteList (applyInserts db needUpdates) fsExists) := by
            rw [← hins]
            exact delete_records_ok s1.1 _ delFails delCommitFails d hdel2
          exact ⟨Or.inr (Or.inr hfinal), fun _ _ => hfinal, fun _ hndt => absurd hndt hnd⟩
        | error e =>
          refine ⟨Or.inr (Or.inl hins), ?_, ?_⟩
          · intro htrue _
            simp at htrue
          · intro _ hndt
            exact absurd hndt hnd

/-- The row loop of `need_update`, with `none` modelling an unrecoverable
abort of the thread: `r.parse::<u64>().unwrap()` and
`path.metadata().unwrap().modified().unwrap().duration_since(..).unwrap()`
abort instead of returning an error.  `mtime = none` models a path whose
metadata / mtime cannot be read. -/
def needUpdateRows : List String → Option Nat → Option (Except String Bool)
  | [], _ => some (Except.ok true)
  | r :: rest, mtime =>
    match parseU64 r.data with
    | none => none
    | some ru =>
      match mtime with
      | none => none
      | some ts => if ts ≤ ru then some (Except.ok false) else needUpdateRows rest mtime

/-- Embedding of `DataBase::need_update`: look up the stored `last_modified`
values for the path's file name (`queryRows` models the SQL query) and
compare each against the file's mtime.  The outer `Option` is `none` when the
code aborts (panics); the inner `Except` is the function's `Result`. -/
def need_update (fileName : Option String) (queryRows : String → List String)
    (mtime : Option Nat) : Option (Except String Bool) :=
  match fileName with
  | none => some (Except.error "file name missing")
  | some name => needUpdateRows (queryRows name) mtime

/-- C9: when the file already has a catalog row (here `last_modified = "100"`)
and its path metadata cannot be read, `need_update` aborts (the `unwrap` on
`path.metadata()`), killing the sync thread — it does not treat the file as
new.  A file with no catalog row is reported as new without touching
metadata. -/
theorem c9_need_update_panics :
    need_update (some "song.mp3") (fun _ => ["100"]) none = none ∧
      need_update (some "song.mp3") (fun _ => []) none = some (Except.ok true) := by
  exact ⟨rfl, rfl⟩

end DataBase

/-! ## The player event vocabulary (`src/lib/src/player.rs`)

The Rust domain types and the prost-generated protobuf message types are both
embedded; `u16`/`u32`/`u64` become `Fin 65536`/`Nat`/`Nat`, `i32` becomes
`Int`, and `std::time::Duration` keeps its invariant `subsec nanos < 10^9`
as a `Fin`.
-/

namespace Player

/-- Embedding of `protobuf::Duration`: plain seconds and (unnormalized) nanoseconds. -/
structure PBDuration where
  secs : Nat
  nanos : Nat
deriving DecidableEq, Repr

/-- Embedding of `std::time::Duration`: the subsecond part is always below one second. -/
structure StdDuration where
  secs : Nat
  nanos : Fin 1000000000
deriving DecidableEq, Repr

/-- Embedding of `From<std::time::Duration> for protobuf::Duration`. -/
def stdToPb (d : StdDuration) : PBDuration :=
  ⟨d.secs, d.nanos.val⟩

/-- Embedding of `From<protobuf::Duration> for std::time::Duration`, that is
`Duration::new(secs, nanos)`, which normalizes nanoseconds into seconds. -/
def pbToStd (d : PBDuration) : StdDuration :=
  ⟨d.secs + d.nanos / 1000000000, ⟨d.nanos % 1000000000, Nat.mod_lt _ (by omega)⟩⟩

/-- Embedding of `PlayerProgress`. -/
structure PlayerProgress where
  position : Option StdDuration
  total_duration : Option StdDuration
deriving DecidableEq, Repr

/-- Embedding of `protobuf::PlayerTime`. -/
structure PlayerTime where
  position : Option PBDuration
  total_duration : Option PBDuration
deriving DecidableEq, Repr

/-- Embedding of `From<PlayerProgress> for protobuf::PlayerTime`. -/
def playerTimeOfProgress (v : PlayerProgress) : PlayerTime :=
  ⟨v.position.map stdToPb, v.total_duration.map stdToPb⟩

/-- Embedding of `From<protobuf::PlayerTime> for PlayerProgress`. -/
def progressOfPlayerTime (v : PlayerTime) : PlayerProgress :=
  ⟨v.position.map pbToStd, v.total_duration.map pbToStd⟩

/-- Embedding of `protobuf::UpdateProgress`. -/
structure UpdateProgress where
  progress : Option PlayerTime
deriving DecidableEq, Repr

/-- Embedding of `unwrap_msg`: unwrap a grpc option, erring with a location on `None`. -/
def unwrap_msg {α : Type} (opt : Option α) (place : String) : Except String α :=
  match opt with
  | some val => Except.ok val
  | none => Except.error ("Got None in grpc " ++ place)

/-- Embedding of `TryFrom<protobuf::UpdateProgress> for PlayerProgress`. -/
def tryProgressOfUpdateProgress (value : UpdateProgress) : Except String PlayerProgress :=
  match value.progress with
  | none => Except.error "Expected UpdateProgress to contain Some(progress)"
  | some val => Except.ok (progressOfPlayerTime val)

/-- Embedding of `From<PlayerProgress> for protobuf::UpdateProgress`. -/
def updateProgressOfProgress (value : PlayerProgress) : UpdateProgress :=
  ⟨some (playerTimeOfProgress value)⟩

/-- Embedding of `protobuf::track_id::Source`. -/
inductive TrackIdSource where
  | Path (v : String)
  | Url (v : String)
  | PodcastUrl (v : String)
deriving DecidableEq, Repr

/-- Embedding of `protobuf::TrackId`. -/
structure TrackId where
  source : Option TrackIdSource
deriving DecidableEq, Repr

/-- Embedding of `playlist_helpers::PlaylistTrackSource`. -/
inductive PlaylistTrackSource where
  | Path (v : String)
  | Url (v : String)
  | PodcastUrl (v : String)
deriving DecidableEq, Repr

/-- Embedding of `From<PlaylistTrackSource> for protobuf::track_id::Source`. -/
def sourceOfPlaylistTrackSource : PlaylistTrackSource → TrackIdSource
  | PlaylistTrackSource.Path v => TrackIdSource.Path v
  | PlaylistTrackSource.Url v => TrackIdSource.Url v
  | PlaylistTrackSource.PodcastUrl v => TrackIdSource.PodcastUrl v

/-- Embedding of `TryFrom<protobuf::track_id::Source> for PlaylistTrackSource` (total). -/
def playlistTrackSourceOfSource : TrackIdSource → Except String PlaylistTrackSource
  | TrackIdSource.Path v => Except.ok (PlaylistTrackSource.Path v)
  | TrackIdSource.Url v => Except.ok (PlaylistTrackSource.Url v)
  | TrackIdSource.PodcastUrl v => Except.ok (PlaylistTrackSource.PodcastUrl v)

/-- Embedding of `From<PlaylistTrackSource> for protobuf::TrackId`. -/
def trackIdOfPlaylistTrackSource (value : PlaylistTrackSource) : TrackId :=
  ⟨some (sourceOfPlaylistTrackSource value)⟩

/-- Modelled from the spec: the generated protobuf `PlaylistTracks` message
(the payload of a shuffle, "shuffled-to new order") is produced by
`tonic::include_proto!` and its `.proto` source is not under `src/`; the
spec says a shuffle carries the new track order.  This code only moves the
value, so only its identity matters. -/
structure PlaylistTracks where
  current_track_index : Nat
  tracks : List TrackId
deriving DecidableEq, Repr

/-- Embedding of `TrackChangedInfo`. -/
structure TrackChangedInfo where
  current_track_index : Nat
  current_track_updated : Bool
  title : Option String
  progress : Option PlayerProgress
deriving DecidableEq, Repr

/-- Embedding of `protobuf::UpdateTrackChanged` (the oneof `optional_title` is an
`Option String`). -/
structure UpdateTrackChanged where
  current_track_index : Nat
  current_track_updated : Bool
  optional_title : Option String
  progress : Option PlayerTime
deriving DecidableEq, Repr

/-- Embedding of `PlaylistAddTrackInfo`. -/
structure PlaylistAddTrackInfo where
  at_index : Nat
  title : Option String
  duration : StdDuration
  trackid : PlaylistTrackSource
deriving DecidableEq, Repr

/-- Embedding of `PlaylistRemoveTrackInfo`. -/
structure PlaylistRemoveTrackInfo where
  at_index : Nat
  trackid : PlaylistTrackSource
deriving DecidableEq, Repr

/-- Embedding of `PlaylistLoopModeInfo`. -/
structure PlaylistLoopModeInfo where
  mode : Nat
deriving DecidableEq, Repr

/-- Embedding of `PlaylistSwapInfo`. -/
structure PlaylistSwapInfo where
  index_a : Nat
  index_b : Nat
deriving DecidableEq, Repr

/-- Embedding of `PlaylistShuffledInfo`. -/
structure PlaylistShuffledInfo where
  tracks : PlaylistTracks
deriving DecidableEq, Repr

/-- Embedding of `protobuf::PlaylistAddTrack`. -/
structure PlaylistAddTrack where
  at_index : Nat
  optional_title : Option String
  duration : Option PBDuration
  id : Option TrackId
deriving DecidableEq, Repr

/-- Embedding of `protobuf::PlaylistRemoveTrack`. -/
structure PlaylistRemoveTrack where
  at_index : Nat
  id : Option TrackId
deriving DecidableEq, Repr

/-- Embedding of `protobuf::PlaylistCleared` (no fields). -/
structure PlaylistCleared where
deriving DecidableEq, Repr

/-- Embedding of `protobuf::PlaylistLoopMode`. -/
structure PlaylistLoopMode where
  mode : Nat
deriving DecidableEq, Repr

/-- Embedding of `protobuf::PlaylistSwapTracks`. -/
structure PlaylistSwapTracks where
  index_a : Nat
  index_b : Nat
deriving DecidableEq, Repr

/-- Embedding of `protobuf::PlaylistShuffled`. -/
structure PlaylistShuffled where
  shuffled : Option PlaylistTracks
deriving DecidableEq, Repr

/-- Embedding of `UpdatePlaylistEvents`. -/
inductive UpdatePlaylistEvents where
  | PlaylistAddTrack (info : PlaylistAddTrackInfo)
  | PlaylistRemoveTrack (info : PlaylistRemoveTrackInfo)
  | PlaylistCleared
  | PlaylistLoopMode (info : PlaylistLoopModeInfo)
  | PlaylistSwapTracks (info : PlaylistSwapInfo)
  | PlaylistShuffled (info : PlaylistShuffledInfo)
deriving DecidableEq, Repr

/-- Embedding of `protobuf::update_playlist::Type`. -/
inductive UpdatePlaylistType where
  | AddTrack (v : PlaylistAddTrack)
  | RemoveTrack (v : PlaylistRemoveTrack)
  | Cleared (v : PlaylistCleared)
  | LoopMode (v : PlaylistLoopMode)
  | SwapTracks (v : PlaylistSwapTracks)
  | Shuffled (v : PlaylistShuffled)
deriving DecidableEq, Repr

/-- Embedding of `protobuf::UpdatePlaylist`. -/
structure UpdatePlaylist where
  type : Option UpdatePlaylistType
deriving DecidableEq, Repr

/-- Embedding of `From<UpdatePlaylistEvents> for protobuf::UpdatePlaylist`. -/
def updatePlaylistOfEvents : UpdatePlaylistEvents → UpdatePlaylist
  | UpdatePlaylistEvents.PlaylistAddTrack vals =>
    ⟨some (UpdatePlaylistType.AddTrack
      ⟨vals.at_index, vals.title, some (stdToPb vals.duration),
        some (trackIdOfPlaylistTrackSource vals.trackid)⟩)⟩
  | UpdatePlaylistEvents.PlaylistRemoveTrack vals =>
    ⟨some (UpdatePlaylistType.RemoveTrack
      ⟨vals.at_index, some (trackIdOfPlaylistTrackSource vals.trackid)⟩)⟩
  | UpdatePlaylistEvents.PlaylistCleared =>
    ⟨some (UpdatePlaylistType.Cleared ⟨⟩)⟩
  | UpdatePlaylistEvents.PlaylistLoopMode vals =>
    ⟨some (UpdatePlaylistType.LoopMode ⟨vals.mode⟩)⟩
  | UpdatePlaylistEvents.PlaylistSwapTracks vals =>
    ⟨some (UpdatePlaylistType.SwapTracks ⟨vals.index_a, vals.index_b⟩)⟩
  | UpdatePlaylistEvents.PlaylistShuffled vals =>
    ⟨some (UpdatePlaylistType.Shuffled ⟨some vals.tracks⟩)⟩

/-- Embedding of `TryFrom<protobuf::UpdatePlaylist> for UpdatePlaylistEvents`. -/
def tryEventsOfUpdatePlaylist (value : UpdatePlaylist) : Except String UpdatePlaylistEvents :=
  match unwrap_msg value.type "UpdatePlaylist.type" with
  | Except.error e => Except.error e
  | Except.ok v =>
    match v with
    | UpdatePlaylistType.AddTrack ev =>
      match unwrap_msg ev.duration "UpdatePlaylist.type.add_track.duration" with
      | Except.error e => Except.error e
      | Except.ok dur =>
        match unwrap_msg ev.id "UpdatePlaylist.type.add_track.id" with
        | Except.error e => Except.error e
        | Except.ok tid =>
          match unwrap_msg tid.source "UpdatePlaylist.type.add_track.id.source" with
          | Except.error e => Except.error e
          | Except.ok src =>
            match playlistTrackSourceOfSource src with
            | Except.error e => Except.error e
            | Except.ok s =>
              Except.ok (UpdatePlaylistEvents.PlaylistAddTrack
                ⟨ev.at_index, ev.optional_title, pbToStd dur, s⟩)
    | UpdatePlaylistType.RemoveTrack ev =>
      match unwrap_msg ev.id "UpdatePlaylist.type.remove_track.id" with
      | Except.error e => Except.error e
      | Except.ok tid =>
        match unwrap_msg tid.source "UpdatePlaylist.type.remove_track.id.source" with
        | Except.error e => Except.error e
        | Except.ok src =>
          match playlistTrackSourceOfSource src with
          | Except.error e => Except.error e
          | Except.ok s =>
            Except.ok (UpdatePlaylistEvents.PlaylistRemoveTrack ⟨ev.at_index, s⟩)
    | UpdatePlaylistType.Cleared _ => Except.ok UpdatePlaylistEvents.PlaylistCleared
    | UpdatePlaylistType.LoopMode ev =>
      Except.ok (UpdatePlaylistEvents.PlaylistLoopMode ⟨ev.mode⟩)
    | UpdatePlaylistType.SwapTracks ev =>
      Except.ok (UpdatePlaylistEvents.PlaylistSwapTracks ⟨ev.index_a, ev.index_b⟩)
    | UpdatePlaylistType.Shuffled ev =>
      match unwrap_msg ev.shuffled "UpdatePlaylist.type.shuffled.shuffled" with
      | Except.error e => Except.error e
      | Except.ok shuffled =>
        Except.ok (UpdatePlaylistEvents.PlaylistShuffled ⟨shuffled⟩)

/-- Embedding of `VolumeReply` (`volume` is a `u32` on the wire). -/
structure VolumeReply where
  volume : Nat
deriving DecidableEq, Repr

/-- Embedding of `protobuf::UpdateVolumeChanged`. -/
structure UpdateVolumeChanged where
  msg : Option VolumeReply
deriving DecidableEq, Repr

/-- Embedding of `SpeedReply` (`speed` is an `i32`). -/
structure SpeedReply where
  speed : Int
deriving DecidableEq, Repr

/-- Embedding of `protobuf::UpdateSpeedChanged`. -/
structure UpdateSpeedChanged where
  msg : Option SpeedReply
deriving DecidableEq, Repr

/-- Embedding of `PlayState` (`status` is a `u32`). -/
structure PlayState where
  status : Nat
deriving DecidableEq, Repr

/-- Embedding of `protobuf::UpdatePlayStateChanged`. -/
structure UpdatePlayStateChanged where
  msg : Option PlayState
deriving DecidableEq, Repr

/-- Embedding of `protobuf::UpdateMissedEvents`. -/
structure UpdateMissedEvents where
  amount : Nat
deriving DecidableEq, Repr

/-- Embedding of `GaplessState`. -/
structure GaplessState where
  gapless : Bool
deriving DecidableEq, Repr

/-- Embedding of `protobuf::UpdateGaplessChanged`. -/
structure UpdateGaplessChanged where
  msg : Option GaplessState
deriving DecidableEq, Repr

/-- Embedding of `UpdateEvents` (`volume` is a `u16` in the Rust type). -/
inductive UpdateEvents where
  | MissedEvents (amount : Nat)
  | VolumeChanged (volume : Fin 65536)
  | SpeedChanged (speed : Int)
  | PlayStateChanged (playing : Nat)
  | TrackChanged (info : TrackChangedInfo)
  | GaplessChanged (gapless : Bool)
  | PlaylistChanged (ev : UpdatePlaylistEvents)
  | Progress (ev : PlayerProgress)
deriving DecidableEq, Repr

/-- Embedding of `protobuf::stream_updates::Type`. -/
inductive StreamUpdatesType where
  | MissedEvents (v : UpdateMissedEvents)
  | VolumeChanged (v : UpdateVolumeChanged)
  | SpeedChanged (v : UpdateSpeedChanged)
  | PlayStateChanged (v : UpdatePlayStateChanged)
  | TrackChanged (v : UpdateTrackChanged)
  | GaplessChanged (v : UpdateGaplessChanged)
  | PlaylistChanged (v : UpdatePlaylist)
  | ProgressChanged (v : UpdateProgress)
deriving DecidableEq, Repr

/-- Embedding of `protobuf::StreamUpdates`. -/
structure StreamUpdates where
  type : Option StreamUpdatesType
deriving DecidableEq, Repr

/-- Embedding of `clamp_u16`: `val.min(u16::MAX) as u16`. -/
def clamp_u16 (val : Nat) : Fin 65536 :=
  ⟨min val 65535, by omega⟩

/-- Embedding of `From<UpdateEvents> for protobuf::StreamUpdates`. -/
def streamUpdatesOfEvents : UpdateEvents → StreamUpdates
  | UpdateEvents.MissedEvents amount =>
    ⟨some (StreamUpdatesType.MissedEvents ⟨amount⟩)⟩
  | UpdateEvents.VolumeChanged volume =>
    ⟨some (StreamUpdatesType.VolumeChanged ⟨some ⟨volume.val⟩⟩)⟩
  | UpdateEvents.SpeedChanged speed =>
    ⟨some (StreamUpdatesType.SpeedChanged ⟨some ⟨speed⟩⟩)⟩
  | UpdateEvents.PlayStateChanged playing =>
    ⟨some (StreamUpdatesType.PlayStateChanged ⟨some ⟨playing⟩⟩)⟩
  | UpdateEvents.TrackChanged info =>
    ⟨some (StreamUpdatesType.TrackChanged
      ⟨info.current_track_index, info.current_track_updated, info.title,
        info.progress.map playerTimeOfProgress⟩)⟩
  | UpdateEvents.GaplessChanged gapless =>
    ⟨some (StreamUpdatesType.GaplessChanged ⟨some ⟨gapless⟩⟩)⟩
  | UpdateEvents.PlaylistChanged ev =>
    ⟨some (StreamUpdatesType.PlaylistChanged (updatePlaylistOfEvents ev))⟩
  | UpdateEvents.Progress ev =>
    ⟨some (StreamUpdatesType.ProgressChanged (updateProgressOfProgress ev))⟩

/-- Embedding of `TryFrom<protobuf::StreamUpdates> for UpdateEvents`. -/
def tryEventsOfStreamUpdates (value : StreamUpdates) : Except String UpdateEvents :=
  match unwrap_msg value.type "StreamUpdates.type" with
  | Except.error e => Except.error e
  | Except.ok v =>
    match v with
    | StreamUpdatesType.VolumeChanged ev =>
      match unwrap_msg ev.msg "StreamUpdates.types.volume_changed.msg" with
      | Except.error e => Except.error e
      | Except.ok m => Except.ok (UpdateEvents.VolumeChanged (clamp_u16 m.volume))
    | StreamUpdatesType.SpeedChanged ev =>
      match unwrap_msg ev.msg "StreamUpdates.types.speed_changed.msg" with
      | Except.error e => Except.error e
      | Except.ok m => Except.ok (UpdateEvents.SpeedChanged m.speed)
    | StreamUpdatesType.PlayStateChanged ev =>
      match unwrap_msg ev.msg "StreamUpdates.types.play_state_changed.msg" with
      | Except.error e => Except.error e
      | Except.ok m => Except.ok (UpdateEvents.PlayStateChanged m.status)
    | StreamUpdatesType.MissedEvents ev =>
      Except.ok (UpdateEvents.MissedEvents ev.amount)
    | StreamUpdatesType.TrackChanged ev =>
      Except.ok (UpdateEvents.TrackChanged
        ⟨ev.current_track_index, ev.current_track_updated, ev.optional_title,
          ev.progress.map progressOfPlayerTime⟩)
    | StreamUpdatesType.GaplessChanged ev =>
      match unwrap_msg ev.msg "StreamUpdates.types.gapless_changed.msg" with
      | Except.error e => Except.error e
      | Except.ok m => Except.ok (UpdateEvents.GaplessChanged m.gapless)
    | StreamUpdatesType.PlaylistChanged ev =>
      match tryEventsOfUpdatePlaylist ev with
      | Except.error e => Except.error e
      | Except.ok x => Except.ok (UpdateEvents.PlaylistChanged x)
    | StreamUpdatesType.ProgressChanged ev =>
      match tryProgressOfUpdateProgress ev with
      | Except.error e => Except.error e
      | Except.ok x => Except.ok (UpdateEvents.Progress x)

theorem pbToStd_stdToPb (d : StdDuration) : pbToStd (stdToPb d) = d := by
  obtain ⟨secs, nanos⟩ := d
  rw [stdToPb, pbToStd]
  have hlt : nanos.val < 1000000000 := nanos.isLt
  congr 1
  · show secs + nanos.val / 1000000000 = secs
    rw [Nat.div_eq_of_lt hlt]
    omega
  · apply Fin.ext
    exact Nat.mod_eq_of_lt hlt

theorem progress_roundtrip (p : PlayerProgress) :
    progressOfPlayerTime (playerTimeOfProgress p) = p := by
  obtain ⟨pos, tot⟩ := p
  cases pos <;> cases tot <;>
    simp [playerTimeOfProgress, progressOfPlayerTime, pbToStd_stdToPb]

theorem source_roundtrip (s : PlaylistTrackSource) :
    playlistTrackSourceOfSource (sourceOfPlaylistTrackSource s) = Except.ok s := by
  cases s <;> rfl

theorem playlist_roundtrip (e : UpdatePlaylistEvents) :
    tryEventsOfUpdatePlaylist (updatePlaylistOfEvents e) = Except.ok e := by
  cases e with
  | PlaylistAddTrack info =>
    obtain ⟨ai, ti, du, tr⟩ := info
    simp [updatePlaylistOfEvents, tryEventsOfUpdatePlaylist, unwrap_msg,
      trackIdOfPlaylistTrackSource, source_roundtrip, pbToStd_stdToPb]
  | PlaylistRemoveTrack info =>
    obtain ⟨ai, tr⟩ := info
    simp [updatePlaylistOfEvents, tryEventsOfUpdatePlaylist, unwrap_msg,
      trackIdOfPlaylistTrackSource, source_roundtrip]
  | PlaylistCleared => rfl
  | PlaylistLoopMode info => rfl
  | PlaylistSwapTracks info => rfl
  | PlaylistShuffled info => rfl

/-- C10: converting any `UpdateEvents` value (including every nested
`UpdatePlaylistEvents` variant) to the protobuf wire form and back is the
identity: no field of any variant is lost or altered. -/
theorem c10_update_events_roundtrip (ev : UpdateEvents) :
    tryEventsOfStreamUpdates (streamUpdatesOfEvents ev) = Except.ok ev := by
  cases ev with
  | MissedEvents amount => rfl
  | VolumeChanged volume =>
    simp only [streamUpdatesOfEvents, tryEventsOfStreamUpdates, unwrap_msg]
    have : clamp_u16 volume.val = volume := by
      apply Fin.ext
      show min volume.val 65535 = volume.val
      have := volume.isLt
      omega
    rw [this]
  | SpeedChanged speed => rfl
  | PlayStateChanged playing => rfl
  | TrackChanged info =>
    obtain ⟨ci, cu, ti, pr⟩ := info
    simp only [streamUpdatesOfEvents, tryEventsOfStreamUpdates, unwrap_msg]
    cases pr with
    | none => rfl
    | some p =>
      simp [progress_roundtrip]
  | GaplessChanged gapless => rfl
  | PlaylistChanged e =>
    simp only [streamUpdatesOfEvents, tryEventsOfStreamUpdates, unwrap_msg,
      playlist_roundtrip e]
  | Progress e =>
    simp only [streamUpdatesOfEvents, tryEventsOfStreamUpdates, unwrap_msg,
      updateProgressOfProgress, tryProgressOfUpdateProgress, progress_roundtrip e]

end Player

/-! ## Concrete witnesses -/

/-- Witness for C2 at a concrete lyric: the round trip is the identity on a
sorted, merged lyric with centisecond timestamps. -/
theorem c2_witness :
    Lyric.from_str (Lyric.as_lrc_text ⟨5, [⟨12300, "Hello"⟩, ⟨15300, "World"⟩]⟩) =
      ⟨5, [⟨12300, "Hello"⟩, ⟨15300, "World"⟩]⟩ := by
  have hc1 : RoundTripCaption ⟨12300, "Hello"⟩ := by
    refine ⟨by decide, by decide, by decide, by decide, by decide, ?_⟩
    intro ch h
    have : ch = 'o' := by
      rw [show ("Hello" : String).data.getLast? = some 'o' from rfl, Option.some_inj] at h
      exact h.symm
    rw [this]
    decide
  have hc2 : RoundTripCaption ⟨15300, "World"⟩ := by
    refine ⟨by decide, by decide, by decide, by decide, by decide, ?_⟩
    intro ch h
    have : ch = 'd' := by
      rw [show ("World" : String).data.getLast? = some 'd' from rfl, Option.some_inj] at h
      exact h.symm
    rw [this]
    decide
  have hcaps : ∀ c ∈ ([⟨12300, "Hello"⟩, ⟨15300, "World"⟩] : List Caption), RoundTripCaption c := by
    intro c hc
    rcases List.mem_cons.mp hc with h | h
    · exact h ▸ hc1
    · rcases List.mem_cons.mp h with h2 | h2
      · exact h2 ▸ hc2
      · simp at h2
  have h := c2_format_parse_roundtrip ⟨5, [⟨12300, "Hello"⟩, ⟨15300, "World"⟩]⟩ hcaps
    (by decide) (by decide)
  exact h.2 (List.chain'_cons.mpr ⟨by decide, List.chain'_singleton _⟩)
    (List.chain'_cons.mpr ⟨by decide, List.chain'_singleton _⟩)

/-- Witness for C3 at a concrete string with two captions 900 ms apart: the
parse result is sorted and satisfies the 2000 ms adjacency bound. -/
theorem c3_witness :
    List.Chain' capLE (Lyric.from_str "[00:02.10]b\n[00:01.20]a").captions ∧
      List.Chain' capGap (Lyric.from_str "[00:02.10]b\n[00:01.20]a").captions :=
  ⟨(c3_from_str_merge_invariant "[00:02.10]b\n[00:01.20]a").1,
    (c3_from_str_merge_invariant "[00:02.10]b\n[00:01.20]a").2.1⟩

/-- Witness for C4 at the claim's own example: a lyric whose only caption is
`[00:00.00]x` yields "x" for a query at time 0. -/
theorem c4_witness : Lyric.get_text ⟨0, [⟨0, "x"⟩]⟩ 0 = some "x" := by
  have h := (c4_get_text_greatest ⟨0, [⟨0, "x"⟩]⟩ 0 (List.chain'_singleton _)).2 0 ⟨0, "x"⟩
    (by decide) (by decide)
  obtain ⟨j, cj, hget, heq, -, -⟩ := h
  match j, hget with
  | 0, hget =>
    rw [List.get?_cons_zero, Option.some_inj] at hget
    rw [heq, ← hget]
  | k + 1, hget =>
    rw [List.get?_cons_succ] at hget
    simp at hget

/-- Witness for C5 at a concrete lyric: at `t = 1500` with offset 0 both
captions of `[(0, a), (1500, b)]` are at or before `|t + offset|`, and
`get_index` returns the last one. -/
theorem c5_witness :
    Lyric.get_index ⟨0, [⟨0, "a"⟩, ⟨1500, "b"⟩]⟩ 1500 = some 1 := by
  have h := c5_get_index_greatest ⟨0, [⟨0, "a"⟩, ⟨1500, "b"⟩]⟩ 1500
    (List.chain'_cons.mpr ⟨by decide, List.chain'_singleton _⟩) (by decide) 1 ⟨1500, "b"⟩
    (by decide) (by decide)
  obtain ⟨j, cj, hget, hidx, -, hmax⟩ := h
  have hj1 : 1 ≤ j := hmax 1 ⟨1500, "b"⟩ (by decide) (by decide)
  match j, hget, hidx, hj1 with
  | 1, _, hidx, _ => exact hidx
  | k + 2, hget, _, _ =>
    rw [List.get?_cons_succ, List.get?_cons_succ] at hget
    simp at hget

/-- Witness for C6 at the claim's own example: `00:12.305` parses to
12305 ms. -/
theorem c6_witness : Caption.parse_time "00:12.305".data = some 12305 := by
  have h := c6_parse_time_fraction.1 "00".data "12".data "305".data (by decide) (by decide)
    (by decide) (by decide) (by decide) (by decide) (by decide) (by decide) (by decide)
  have he : "00:12.305".data = "00".data ++ ':' :: ("12".data ++ '.' :: "305".data) := by decide
  rw [he, h]
  decide

/-- Witness for C7 at the spec's "adjust offset early" scenario: captions
start at 5000 ms, `adjust_offset(5s, +1000)` moves the global offset to 1000
and leaves every caption unchanged. -/
theorem c7_witness :
    Lyric.adjust_offset ⟨0, [⟨5000, "x"⟩, ⟨11000, "y"⟩]⟩ 5000 1000 =
      ⟨1000, [⟨5000, "x"⟩, ⟨11000, "y"⟩]⟩ := by
  obtain ⟨idx, cidx, hidx, -, hbr1, -⟩ :=
    c7_adjust_offset_frame ⟨0, [⟨5000, "x"⟩, ⟨11000, "y"⟩]⟩ 5000 1000 (by decide)
  have hidx0 : idx = 0 := by
    have hc : Lyric.get_index ⟨0, [⟨5000, "x"⟩, ⟨11000, "y"⟩]⟩ (((5000 : Nat) : Int)) = some 0 := by
      decide
    rw [hc, Option.some_inj] at hidx
    exact hidx.symm
  have h := hbr1 (Or.inl hidx0)
  rw [h.1]
  decide

/-- Witness for C8 at the claim's own examples. -/
theorem c8_witness :
    duration_to_int (some "1:02:03") = some 3723 ∧
      duration_to_int (some "2:03") = some 123 ∧
      duration_to_int (some "45") = some 45 ∧
      duration_to_int (some "abc") = none := by
  refine ⟨?_, ?_, ?_, ?_⟩
  · have h := (c8_duration_to_int).1 "1".data "02".data "03".data (by decide) (by decide)
      (by decide) (by decide) (by decide) (by decide) (by decide) (by decide) (by decide)
    have he : ("1:02:03" : String) = String.mk ("1".data ++ ':' :: ("02".data ++ ':' :: "03".data)) := by
      decide
    rw [he, h]
    decide
  · have h := (c8_duration_to_int).2.1 "2".data "03".data (by decide) (by decide)
      (by decide) (by decide) (by decide) (by decide)
    have he : ("2:03" : String) = String.mk ("2".data ++ ':' :: "03".data) := by decide
    rw [he, h]
    decide
  · have h := (c8_duration_to_int).2.2.1 "45".data (by decide) (by decide) (by decide)
    have he : ("45" : String) = String.mk "45".data := by decide
    rw [he, h]
    decide
  · exact (c8_duration_to_int).2.2.2.1 "abc" (by decide)

/-- Witness for C1 at a concrete run with no injected failures: the pass
applies all inserts and then all deletes. -/
theorem c1_witness :
    (DataBase.sync_database_write_phase [⟨"gone", 1⟩] [⟨"a", 5⟩] (fun f => f = "a")
        (fun _ => false) false false (fun _ => false) false).1 =
      DataBase.applyDeletes (DataBase.applyInserts [⟨"gone", 1⟩] [⟨"a", 5⟩])
        (DataBase.needDeleteList (DataBase.applyInserts [⟨"gone", 1⟩] [⟨"a", 5⟩])
          (fun f => f = "a")) :=
  (DataBase.c1_sync_two_transactions [⟨"gone", 1⟩] [⟨"a", 5⟩] (fun f => f = "a")
    (fun _ => false) false false (fun _ => false) false).2.1 (by decide) (by decide)

end Termusic
